import Mathlib

/-!
# Learning UI: step catalog, title derivation, step endpoints, terminal session

A shallow embedding of `src/main.go` (package `main` of AYDEV-FR/learning-ui).

Go strings are byte sequences, so a string is a list of byte values here;
`word[:1]` and `word[1:]` in `formatTitle` slice bytes, not characters.
Go `int` is taken as the 64-bit signed integer of the deployment targets.
-/

namespace LearningUI

/-! ## Go strings -/

/-- A Go string: its bytes, each below 256. -/
abbrev GoString := List Nat

/-- The UTF-8 encoding of one code point. -/
def utf8Bytes (n : Nat) : List Nat :=
  if n < 0x80 then [n]
  else if n < 0x800 then [0xC0 + n / 64, 0x80 + n % 64]
  else if n < 0x10000 then [0xE0 + n / 4096, 0x80 + n / 64 % 64, 0x80 + n % 64]
  else [0xF0 + n / 262144, 0x80 + n / 4096 % 64, 0x80 + n / 64 % 64, 0x80 + n % 64]

/-- The Go string written as the literal `s` in a Go source file (UTF-8 bytes). -/
def go (s : String) : GoString :=
  s.toList.flatMap (fun c => utf8Bytes c.toNat)

/-- Byte `-`. -/
def dash : Nat := 45

/-- Byte `\n`. -/
def newline : Nat := 10

/-! ## Library functions used by the source -/

/-- Go `strings.Split(s, sep)` for a one-byte separator: the segments between
separators, empty ones included; the empty string gives one empty segment. -/
def Split (sep : Nat) : GoString → List GoString
  | [] => [[]]
  | c :: cs =>
    if c = sep then [] :: Split sep cs
    else
      match Split sep cs with
      | [] => [[c]]
      | w :: ws => (c :: w) :: ws

/-- Go `strings.Join(words, sep)`. -/
def Join (sep : GoString) : List GoString → GoString
  | [] => []
  | [w] => w
  | w :: w2 :: ws => w ++ sep ++ Join sep (w2 :: ws)

/-- Go `strings.ToUpper` on the one-byte string `[b]`: an ASCII lowercase letter
becomes its uppercase letter, any other ASCII byte is unchanged, and a byte from
0x80 up is not valid UTF-8 on its own, so `strings.Map` writes the replacement
character U+FFFD (bytes EF BF BD) in its place. -/
def ToUpperByte (b : Nat) : GoString :=
  if b < 0x80 then
    if 97 ≤ b ∧ b ≤ 122 then [b - 32] else [b]
  else [0xEF, 0xBF, 0xBD]

/-- The error kinds of `strconv`. -/
inductive NumError where
  | ErrSyntax
  | ErrRange
  deriving DecidableEq, Repr

/-- Largest Go `int` (64-bit). -/
def maxInt : Int := 2 ^ 63 - 1

/-- Loop of `strconv.ParseUint(s, 10, 64)`: digits are accumulated left to right;
a byte that is no decimal digit is a syntax error, a value that no longer fits
in 64 bits a range error (whichever the scan meets first). -/
def parseUintLoop : GoString → Nat → Except NumError Nat
  | [], n => .ok n
  | c :: cs, n =>
    if c < 48 ∨ 57 < c then .error .ErrSyntax
    else if 2 ^ 64 ≤ n * 10 + (c - 48) then .error .ErrRange
    else parseUintLoop cs (n * 10 + (c - 48))

/-- Go `strconv.ParseUint(s, 10, 64)`. -/
def ParseUint (s : GoString) : Except NumError Nat :=
  match s with
  | [] => .error .ErrSyntax
  | _ => parseUintLoop s 0

/-- Go `strconv.ParseInt(s, 10, 0)` once the sign is taken off: `neg` tells
whether it was `-`, `body` is the rest. The result is the pair (value, error):
on a syntax error the value is 0; on a range error the value saturates at the
nearest bound of `int` and the error is set. -/
def parseIntBody (neg : Bool) (body : GoString) : Int × Option NumError :=
  match ParseUint body with
  | .error .ErrSyntax => (0, some .ErrSyntax)
  | .error .ErrRange => if neg then (-(2 ^ 63), some .ErrRange) else (maxInt, some .ErrRange)
  | .ok un =>
    if neg then
      if 2 ^ 63 < un then (-(2 ^ 63), some .ErrRange) else (-(un : Int), none)
    else
      if 2 ^ 63 ≤ un then (maxInt, some .ErrRange) else ((un : Int), none)

/-- Go `strconv.Atoi(s)` as the pair (value, error): an optional sign `-` or
`+`, then decimal digits. -/
def Atoi (s : GoString) : Int × Option NumError :=
  match s with
  | 45 :: r => parseIntBody true r
  | 43 :: r => parseIntBody false r
  | _ => parseIntBody false s

/-! ## formatTitle -/

/-- Body of the loop of `formatTitle` for one word:
`if len(word) > 0 { words[i] = strings.ToUpper(word[:1]) + word[1:] }`. -/
def capitalize (word : GoString) : GoString :=
  match word with
  | [] => []
  | b :: rest => ToUpperByte b ++ rest

/-- Go `formatTitle(name)`: split on `-`, capitalise each non-empty word in
place, join with one space. -/
def formatTitle (name : GoString) : GoString :=
  Join [32] ((Split dash name).map capitalize)

/-! ## Step files and the catalog -/

/-- Go `StepInfo`: what is held about one step. -/
structure StepInfo where
  Name : GoString
  Title : GoString
  Order : Int
  Content : GoString
  Check : GoString
  deriving DecidableEq, Repr

/-- Go `Step`: the record served to the browser. -/
structure Step where
  Number : Int
  Title : GoString
  Content : GoString
  HasCheck : Bool
  deriving DecidableEq, Repr

/-- Go `CheckResult`. -/
structure CheckResult where
  Success : Bool
  Message : GoString
  deriving DecidableEq, Repr

/-- One entry of the scenario directory as `loadSteps` sees it: `entry.Name()`,
`entry.IsDir()`, and what `os.ReadFile` gives for it (`none` when it fails). -/
structure DirEntry where
  name : GoString
  isDir : Bool
  data : Option GoString
  deriving DecidableEq, Repr

/-- Byte test of the class `\d` (ASCII digits only in Go). -/
def isDigit (b : Nat) : Bool := decide (48 ≤ b ∧ b ≤ 57)

/-- Go `FindStringSubmatch` for `^(\d+)-(.+)SUFFIX$` where SUFFIX is a literal
that starts with `-`: group 1 is the whole leading run of digits (it must be
followed by `-`), group 2 is what stands between that `-` and the final
SUFFIX, at least one byte and no newline (`.` does not match `\n`).
The result is `(matches[1], matches[2])`, or `none` when there is no match. -/
def matchStepFile (suffix : GoString) (name : GoString) : Option (GoString × GoString) :=
  let digits := name.takeWhile isDigit
  match name.dropWhile isDigit with
  | [] => none
  | c :: tail =>
    let slug := tail.take (tail.length - suffix.length)
    if c = dash ∧ digits ≠ [] ∧ slug ≠ [] ∧ newline ∉ slug
        ∧ tail.drop (tail.length - suffix.length) = suffix then
      some (digits, slug)
    else none

/-- Literal tail of the content pattern. -/
def contentSuffix : GoString := go "-content.md"

/-- Literal tail of the check pattern. -/
def checkSuffix : GoString := go "-check.sh"

/-- Go `contentRe.FindStringSubmatch`. -/
def contentRe (name : GoString) : Option (GoString × GoString) :=
  matchStepFile contentSuffix name

/-- Go `checkRe.FindStringSubmatch`. -/
def checkRe (name : GoString) : Option (GoString × GoString) :=
  matchStepFile checkSuffix name

/-- Go `stepName := matches[1] + "-" + matches[2]`: the pairing key. -/
def stepKey (digits slug : GoString) : GoString := digits ++ dash :: slug

/-- Go `map[string]*StepInfo`, kept in insertion order. -/
abbrev StepMap := List (GoString × StepInfo)

/-- Go `stepMap[k]` with the comma-ok form. -/
def mapFind (k : GoString) : StepMap → Option StepInfo
  | [] => none
  | (k', v) :: m => if k' = k then some v else mapFind k m

/-- Update through the pointer stored under `k`. -/
def mapModify (k : GoString) (f : StepInfo → StepInfo) : StepMap → StepMap
  | [] => []
  | (k', v) :: m => if k' = k then (k', f v) :: m else (k', v) :: mapModify k f m

/-- Body of the `for _, entry := range entries` loop of `loadSteps`. -/
def scanEntry (stepMap : StepMap) (entry : DirEntry) : StepMap :=
  if entry.isDir then stepMap
  else
    match contentRe entry.name with
    | some (digits, slug) =>
      let order := (Atoi digits).1
      let stepName := stepKey digits slug
      match entry.data with
      | none => stepMap
      | some content =>
        match mapFind stepName stepMap with
        | some _ => mapModify stepName (fun step => { step with Content := content }) stepMap
        | none =>
          stepMap ++ [(stepName,
            { Name := stepName, Title := formatTitle slug, Order := order,
              Content := content, Check := [] })]
    | none =>
      match checkRe entry.name with
      | some (digits, slug) =>
        let order := (Atoi digits).1
        let stepName := stepKey digits slug
        match entry.data with
        | none => stepMap
        | some check =>
          match mapFind stepName stepMap with
          | some _ => mapModify stepName (fun step => { step with Check := check }) stepMap
          | none =>
            stepMap ++ [(stepName,
              { Name := stepName, Title := formatTitle slug, Order := order,
                Content := [], Check := check })]
      | none => stepMap

/-- The order in which `for _, step := range stepMap` visits the map: Go leaves
it unspecified, so it is any rearrangement of the entries. -/
structure MapOrder where
  range : StepMap → StepMap
  perm : ∀ m, (range m).Perm m

/-- Visit in insertion order. -/
def MapOrder.insertion : MapOrder := ⟨fun m => m, fun _ => List.Perm.refl _⟩

/-- Visit in reverse insertion order. -/
def MapOrder.reversed : MapOrder := ⟨fun m => m.reverse, fun m => List.reverse_perm m⟩

/-- Go `sort.Slice(stepsCache, less)` with `less = Order[i] < Order[j]`: the
records rearranged into ascending `Order`. Together with the free visiting order
of the map this gives every ascending rearrangement the Go program can produce. -/
def sortSlice (steps : List StepInfo) : List StepInfo :=
  steps.insertionSort (fun a b => a.Order ≤ b.Order)

/-- Go `loadSteps()`: `readDir` is the result of `os.ReadDir(scenarioPath)`; the
result is the new `stepsCache` and the returned error (`none` for `nil`). -/
def loadSteps (readDir : Except GoString (List DirEntry)) (o : MapOrder) :
    List StepInfo × Option GoString :=
  match readDir with
  | .error err => ([], some err)
  | .ok entries =>
    let stepMap := entries.foldl scanEntry []
    let stepsCache := ((o.range stepMap).map Prod.snd).filter (fun step => step.Content ≠ [])
    (sortSlice stepsCache, none)

/-- Loop of `getSteps`, from index `i` on. -/
def getStepsFrom (i : Nat) : List StepInfo → List Step
  | [] => []
  | info :: rest =>
    { Number := (i : Int) + 1, Title := info.Title, Content := [],
      HasCheck := decide (info.Check ≠ []) } :: getStepsFrom (i + 1) rest

/-- Go `getSteps`: the summaries that are serialised as the response. -/
def getSteps (stepsCache : List StepInfo) : List Step :=
  getStepsFrom 0 stepsCache

/-- What a handler gives back: a JSON body, a `fiber.NewError(code, message)`,
or a run-time panic (index out of range). -/
inductive Response (α : Type) where
  | json (body : α)
  | error (code : Nat) (message : GoString)
  | panicked
  deriving DecidableEq, Repr

/-- Go `fiber.StatusBadRequest`. -/
def StatusBadRequest : Nat := 400

/-- Go `fiber.StatusNotFound`. -/
def StatusNotFound : Nat := 404

/-- Go `stepsCache[i]` for an `int` index: `none` stands for the panic. -/
def index (stepsCache : List StepInfo) (i : Int) : Option StepInfo :=
  if i < 0 then none else stepsCache[i.toNat]?

/-- Go `getStep`: `param` is `c.Params("number")`. -/
def getStep (param : GoString) (stepsCache : List StepInfo) : Response Step :=
  let number := (Atoi param).1
  let err := (Atoi param).2
  if err ≠ none ∨ number < 1 then
    .error StatusBadRequest (go "invalid step number")
  else if number > (stepsCache.length : Int) then
    .error StatusNotFound (go "step not found")
  else
    match index stepsCache (number - 1) with
    | none => .panicked
    | some info =>
      .json { Number := number, Title := info.Title, Content := info.Content,
              HasCheck := decide (info.Check ≠ []) }

/-- Go `checkStep`: `executeCheck` stands for the remote execution; the second
component lists, in order, the scripts that were handed to it. -/
def checkStep (executeCheck : GoString → CheckResult) (param : GoString)
    (stepsCache : List StepInfo) : Response CheckResult × List GoString :=
  let number := (Atoi param).1
  let err := (Atoi param).2
  if err ≠ none ∨ number < 1 then
    (.error StatusBadRequest (go "invalid step number"), [])
  else if number > (stepsCache.length : Int) then
    (.error StatusNotFound (go "step not found"), [])
  else
    match index stepsCache (number - 1) with
    | none => (.panicked, [])
    | some info =>
      if info.Check = [] then
        (.error StatusNotFound (go "no check script for this step"), [])
      else
        (.json (executeCheck info.Check), [info.Check])

/-- A readable regular file of the listing. -/
def file (name content : String) : DirEntry :=
  { name := go name, isDir := false, data := some (go content) }

/-! ## Terminal session

`handleTerminal` and the goroutine it starts, as a transition system: each
event is the outcome of one blocking call, chosen by the environment. -/

/-- An effect of the session on its resources (logging is left out). -/
inductive Action where
  | wsWriteText (msg : GoString)
  | setsize
  | ptmxClose
  | processKill
  | cmdWait
  | wsWriteBinary (data : GoString)
  | ptmxWrite (msg : GoString)
  | wsClose
  deriving DecidableEq, Repr

/-- Where `handleTerminal` itself stands. -/
inductive MainPc where
  | start
  | reading
  | writing (msg : GoString)
  | returned
  deriving DecidableEq, Repr

/-- Where the goroutine that copies PTY output to the socket stands. -/
inductive ReaderPc where
  | notStarted
  | reading
  | sending (data : GoString)
  | returned
  deriving DecidableEq, Repr

/-- State of one terminal session. `deferred` is the defer stack of
`handleTerminal`, last registered first; `wsClosed` and `ptmxClosed` record that
`c.Close()` and `ptmx.Close()` were called. -/
structure Session where
  main : MainPc
  reader : ReaderPc
  spawned : Bool
  deferred : List (List Action)
  wsClosed : Bool
  ptmxClosed : Bool
  log : List Action
  deriving DecidableEq, Repr

/-- The deferred function of `handleTerminal`:
`ptmx.Close(); cmd.Process.Kill(); cmd.Wait()`. -/
def cleanup : List Action := [.ptmxClose, .processKill, .cmdWait]

/-- A `return` of `handleTerminal`: the deferred functions run, last registered
first, and the function is left. -/
def ret (s : Session) : Session :=
  { s with
    main := .returned
    deferred := []
    ptmxClosed := s.ptmxClosed || decide (Action.ptmxClose ∈ s.deferred.flatten)
    log := s.log ++ s.deferred.flatten }

/-- Outcome of one blocking call. -/
inductive Event where
  | ptyStart (err : Option GoString)
  | readMessage (msg : Option GoString)
  | ptmxWriteDone (ok : Bool)
  | ptmxRead (data : Option GoString)
  | writeMessageDone (ok : Bool)
  deriving DecidableEq, Repr

/-- A connection that was just upgraded. -/
def Session.init : Session :=
  { main := .start, reader := .notStarted, spawned := false, deferred := [],
    wsClosed := false, ptmxClosed := false, log := [] }

/-- One step of the session; `none` when the call the event belongs to is not
the one its routine waits in. No outcome of a call is excluded: the loops of
`handleTerminal` test no flag, so a frame may still arrive, and be relayed, after
the goroutine has called `c.Close()`. -/
def step (s : Session) (e : Event) : Option Session :=
  match e with
  | .ptyStart err =>
    match s.main, err with
    | .start, some msg =>
      some (ret { s with log := s.log ++ [.wsWriteText (go "Failed to start terminal: " ++ msg)] })
    | .start, none =>
      some { s with
        spawned := true
        deferred := cleanup :: s.deferred
        log := s.log ++ [.setsize]
        reader := .reading
        main := .reading }
    | _, _ => none
  | .readMessage r =>
    match s.main, r with
    | .reading, none => some (ret s)
    | .reading, some msg => some { s with main := .writing msg }
    | _, _ => none
  | .ptmxWriteDone ok =>
    match s.main with
    | .writing msg =>
      if ok then some { s with main := .reading, log := s.log ++ [.ptmxWrite msg] }
      else some (ret s)
    | _ => none
  | .ptmxRead r =>
    match s.reader, r with
    | .reading, none =>
      some { s with reader := .returned, wsClosed := true, log := s.log ++ [.wsClose] }
    | .reading, some data =>
      if data = [] then some s
      else some { s with reader := .sending data }
    | _, _ => none
  | .writeMessageDone ok =>
    match s.reader with
    | .sending data =>
      if ok then some { s with reader := .reading, log := s.log ++ [.wsWriteBinary data] }
      else some { s with reader := .returned }
    | _ => none

/-- The session after a sequence of events, `none` if one of them cannot happen. -/
def run (s : Session) : List Event → Option Session
  | [] => some s
  | e :: es =>
    match step s e with
    | none => none
    | some s' => run s' es

/-- How many times the cleanup routine has run: its three calls are counted
separately and must agree. -/
def cleanupRuns (s : Session) : Option Nat :=
  if s.log.count .ptmxClose = s.log.count .processKill
      ∧ s.log.count .processKill = s.log.count .cmdWait then
    some (s.log.count .ptmxClose)
  else none

/-! ## Definitions used in the statements and proofs -/

/-- Insert-or-update as `loadSteps` does it for one file. -/
def upsert (k : GoString) (f : StepInfo → StepInfo) (fresh : StepInfo) (m : StepMap) : StepMap :=
  match mapFind k m with
  | some _ => mapModify k f m
  | none => m ++ [(k, fresh)]

/-- The record `loadSteps` creates for a content file seen first. -/
def freshContent (d s c : GoString) : StepInfo :=
  { Name := stepKey d s, Title := formatTitle s, Order := (Atoi d).1, Content := c, Check := [] }

/-- The record `loadSteps` creates for a check file seen first. -/
def freshCheck (d s c : GoString) : StepInfo :=
  { Name := stepKey d s, Title := formatTitle s, Order := (Atoi d).1, Content := [], Check := c }

/-- The three ways one directory entry can act on the map. -/
inductive EntryKind (e : DirEntry) : Prop where
  | skip (h : ∀ m, scanEntry m e = m)
      (hno : e.isDir = true ∨ e.data = none ∨ (contentRe e.name = none ∧ checkRe e.name = none))
  | content (d s c : GoString) (hdir : e.isDir = false)
      (hre : contentRe e.name = some (d, s)) (hdata : e.data = some c)
  | check (d s c : GoString) (hdir : e.isDir = false) (hre0 : contentRe e.name = none)
      (hre : checkRe e.name = some (d, s)) (hdata : e.data = some c)

/-- A key as the patterns capture it: digits, `-`, a slug without newline. -/
def KeyShape (k : GoString) (v : StepInfo) : Prop :=
  v.Name = k ∧ ∃ d s, k = stepKey d s ∧ d ≠ [] ∧ (∀ b ∈ d, isDigit b = true) ∧ s ≠ []
    ∧ newline ∉ s ∧ v.Title = formatTitle s ∧ v.Order = (Atoi d).1

/-- What holds of the map after the entries `processed` have been scanned. -/
structure ScanInv (processed : List DirEntry) (m : StepMap) : Prop where
  keys_nodup : (m.map Prod.fst).Nodup
  shape : ∀ k v, mapFind k m = some v → KeyShape k v
  content_src : ∀ k v, mapFind k m = some v → v.Content ≠ [] →
    ∃ e ∈ processed, e.name = k ++ contentSuffix ∧ e.isDir = false ∧ e.data = some v.Content
  check_src : ∀ k v, mapFind k m = some v → v.Check ≠ [] →
    ∃ e ∈ processed, e.name = k ++ checkSuffix ∧ e.isDir = false ∧ e.data = some v.Check

/-- What holds of the map when no two scanned entries have the same name: every
readable step file has left its text in the record of its key. -/
structure ScanComplete (processed : List DirEntry) (m : StepMap) : Prop where
  content_in : ∀ e ∈ processed, e.isDir = false → ∀ c, e.data = some c → ∀ d s,
    contentRe e.name = some (d, s) → ∃ v, mapFind (stepKey d s) m = some v ∧ v.Content = c
  check_in : ∀ e ∈ processed, e.isDir = false → ∀ c, e.data = some c → ∀ d s,
    contentRe e.name = none → checkRe e.name = some (d, s) →
    ∃ v, mapFind (stepKey d s) m = some v ∧ v.Check = c

/-- The records `loadSteps` keeps, in the insertion order of the map. -/
def kept (entries : List DirEntry) : List StepInfo :=
  ((entries.foldl scanEntry []).map Prod.snd).filter (fun step => step.Content ≠ [])

/-- The number a string of decimal digits denotes. -/
def digitsValue (d : GoString) : Nat :=
  d.foldl (fun n c => n * 10 + (c - 48)) 0

/-- ASCII uppercase of one byte. -/
def upperAscii (b : Nat) : Nat := if 97 ≤ b ∧ b ≤ 122 then b - 32 else b

/-- A word with its first byte in ASCII uppercase; the empty word stays empty. -/
def firstUpper : GoString → GoString
  | [] => []
  | b :: rest => upperAscii b :: rest

/-- One pass over the slug: every `-` becomes one space, a byte at the start of
a word is put in ASCII uppercase, every other byte is kept. -/
def titleScan (start : Bool) : GoString → GoString
  | [] => []
  | b :: bs =>
    if b = dash then 32 :: titleScan true bs
    else (if start then upperAscii b else b) :: titleScan false bs

/-- The words of a slug with every word but possibly the first capitalised. -/
def headMap (start : Bool) : List GoString → List GoString
  | [] => []
  | w :: ws => (if start then firstUpper w else w) :: ws.map firstUpper

/-- Each call of the cleanup routine has been made `n` times. -/
def Counts (s : Session) (n : Nat) : Prop :=
  s.log.count .ptmxClose = n ∧ s.log.count .processKill = n ∧ s.log.count .cmdWait = n

/-- What holds in every reachable state of a session. -/
def SessionInv (s : Session) : Prop :=
  match s.main with
  | .start => s.deferred = [] ∧ s.spawned = false ∧ Counts s 0
  | .reading => s.deferred = [cleanup] ∧ s.spawned = true ∧ Counts s 0
  | .writing _ => s.deferred = [cleanup] ∧ s.spawned = true ∧ Counts s 0
  | .returned => s.deferred = [] ∧ Counts s (if s.spawned then 1 else 0)

/-- Three content files whose ordinals 1, 20, 5 leave gaps, as `os.ReadDir` lists them. -/
def gapListing : List DirEntry :=
  [file "1-a-content.md" "first", file "20-c-content.md" "third", file "5-b-content.md" "second"]

/-- A catalog of two steps, the first with a check. -/
def twoSteps : List StepInfo :=
  [⟨go "01-setup", go "Setup", 1, go "install", go "test -f /tmp/ok"⟩,
   ⟨go "02-deploy", go "Deploy", 2, go "deploy", []⟩]

/-- A check file without content file next to a complete step. -/
def checkOnlyListing : List DirEntry :=
  [file "01-a-check.sh" "exit 0", file "02-b-content.md" "text"]

/-- The text after the digit prefix and its `-` in a pairing key: `matches[2]`. -/
def slugOf (name : GoString) : GoString := (name.dropWhile isDigit).drop 1

/-- Two content files with the same ordinal 1 and the same slug `a`. -/
def sameOrdinalListing : List DirEntry :=
  [file "01-a-content.md" "one", file "1-a-content.md" "two"]

/-- A content file whose digit prefix does not fit in `int`, next to an ordinary one. -/
def overflowListing : List DirEntry :=
  [file "01-a-content.md" "one", file "99999999999999999999-x-content.md" "big"]

/-- The listing of the example scenario, as `os.ReadDir` gives it. -/
def setupListing : List DirEntry :=
  [file "01-setup-check.sh" "test -f /tmp/ok", file "01-setup-content.md" "install",
   file "02-deploy-content.md" "deploy"]

/-- The session after PTY end-of-stream: the goroutine closed the socket, the
read of the handler failed, the handler returned. -/
def afterPtyEof : Session :=
  { main := .returned, reader := .returned, spawned := true, deferred := [],
    wsClosed := true, ptmxClosed := true,
    log := [.setsize, .wsClose, .ptmxClose, .processKill, .cmdWait] }

/-- A session in which the handler still receives frames after the goroutine
closed the socket at PTY end-of-stream, and ends on a PTY write error. -/
def lateFrames : List Event :=
  [.ptyStart none, .ptmxRead none, .readMessage (some [108, 115]), .ptmxWriteDone true,
   .readMessage (some [10]), .ptmxWriteDone false]

/-- The session after `lateFrames`. -/
def afterLateWriteError : Session :=
  { main := .returned, reader := .returned, spawned := true, deferred := [],
    wsClosed := true, ptmxClosed := true,
    log := [.setsize, .wsClose, .ptmxWrite [108, 115], .ptmxClose, .processKill, .cmdWait] }

/-! ## Lemmas on the step map -/

theorem mapFind_mapModify (k k' : GoString) (f : StepInfo → StepInfo) (m : StepMap) :
    mapFind k' (mapModify k f m)
      = if k' = k then (mapFind k m).map f else mapFind k' m := by
  induction m with
  | nil => simp [mapModify, mapFind]
  | cons p m ih =>
    obtain ⟨k0, v0⟩ := p
    by_cases h0 : k0 = k
    · by_cases h1 : k' = k
      · simp [mapModify, mapFind, h0, h1]
      · have h2 : ¬ k = k' := fun h => h1 h.symm
        simp [mapModify, mapFind, h0, h1, h2]
    · by_cases h1 : k' = k
      · subst h1
        simp [mapModify, mapFind, h0, ih]
      · simp [mapModify, mapFind, h0, h1, ih]

theorem mapFind_append (k k' : GoString) (v : StepInfo) (m : StepMap) :
    mapFind k' (m ++ [(k, v)])
      = match mapFind k' m with
        | some x => some x
        | none => if k = k' then some v else none := by
  induction m with
  | nil => simp [mapFind]
  | cons p m ih =>
    obtain ⟨k0, v0⟩ := p
    by_cases h0 : k0 = k'
    · simp [mapFind, h0]
    · simp [mapFind, h0, ih]

theorem mapModify_keys (k : GoString) (f : StepInfo → StepInfo) (m : StepMap) :
    (mapModify k f m).map Prod.fst = m.map Prod.fst := by
  induction m with
  | nil => rfl
  | cons p m ih =>
    obtain ⟨k0, v0⟩ := p
    by_cases h0 : k0 = k
    · simp [mapModify, h0]
    · simp [mapModify, h0, ih]

theorem mapFind_eq_none (k : GoString) (m : StepMap) :
    mapFind k m = none ↔ k ∉ m.map Prod.fst := by
  induction m with
  | nil => simp [mapFind]
  | cons p m ih =>
    obtain ⟨k0, v0⟩ := p
    by_cases h0 : k0 = k
    · simp [mapFind, h0]
    · have h1 : ¬ k = k0 := fun h => h0 h.symm
      simp [mapFind, h0, h1, ih]

theorem mem_of_mapFind {k : GoString} {v : StepInfo} {m : StepMap}
    (h : mapFind k m = some v) : (k, v) ∈ m := by
  induction m with
  | nil => simp [mapFind] at h
  | cons p m ih =>
    obtain ⟨k0, v0⟩ := p
    by_cases h0 : k0 = k
    · simp [mapFind, h0] at h
      simp [h0, h]
    · simp [mapFind, h0] at h
      exact List.mem_cons_of_mem _ (ih h)

theorem mapFind_of_mem {k : GoString} {v : StepInfo} {m : StepMap}
    (hnd : (m.map Prod.fst).Nodup) (h : (k, v) ∈ m) : mapFind k m = some v := by
  induction m with
  | nil => simp at h
  | cons p m ih =>
    obtain ⟨k0, v0⟩ := p
    rw [List.map_cons, List.nodup_cons] at hnd
    rcases List.mem_cons.mp h with h1 | h1
    · cases h1
      simp [mapFind]
    · have hk : k ∈ m.map Prod.fst := List.mem_map.mpr ⟨(k, v), h1, rfl⟩
      have h0 : ¬ k0 = k := fun e => hnd.1 (e ▸ hk)
      simp [mapFind, h0, ih hnd.2 h1]

theorem mapFind_upsert (k k' : GoString) (f : StepInfo → StepInfo) (fresh : StepInfo)
    (m : StepMap) :
    mapFind k' (upsert k f fresh m)
      = if k' = k then some ((mapFind k m).elim fresh f) else mapFind k' m := by
  unfold upsert
  cases hk : mapFind k m with
  | none =>
    by_cases h1 : k' = k
    · subst h1
      simp [mapFind_append, hk]
    · have h2 : ¬ k = k' := fun h => h1 h.symm
      simp only [mapFind_append, h1, h2, if_false]
      cases mapFind k' m <;> rfl
  | some v =>
    by_cases h1 : k' = k
    · simp [mapFind_mapModify, h1, hk]
    · simp [mapFind_mapModify, h1]

theorem upsert_keys_nodup (k : GoString) (f : StepInfo → StepInfo) (fresh : StepInfo)
    (m : StepMap) (hnd : (m.map Prod.fst).Nodup) :
    ((upsert k f fresh m).map Prod.fst).Nodup := by
  unfold upsert
  cases hk : mapFind k m with
  | none =>
    have hnot : k ∉ m.map Prod.fst := (mapFind_eq_none k m).mp hk
    simp only [List.map_append, List.map_cons, List.map_nil]
    refine List.Nodup.append hnd (List.nodup_singleton k) ?_
    intro x hx hx2
    rw [List.mem_singleton] at hx2
    exact hnot (hx2 ▸ hx)
  | some v =>
    simpa [mapModify_keys] using hnd

/-! ## Lemmas on the file name patterns -/

theorem checkSuffix_eq : checkSuffix = [45, 99, 104, 101, 99, 107, 46, 115, 104] := by decide

theorem contentSuffix_eq :
    contentSuffix = [45, 99, 111, 110, 116, 101, 110, 116, 46, 109, 100] := by decide

theorem matchStepFile_sound {suffix name d s : GoString}
    (h : matchStepFile suffix name = some (d, s)) :
    name = stepKey d s ++ suffix ∧ d ≠ [] ∧ (∀ b ∈ d, isDigit b = true)
      ∧ s ≠ [] ∧ newline ∉ s := by
  unfold matchStepFile at h
  cases hdrop : name.dropWhile isDigit with
  | nil => simp [hdrop] at h
  | cons c tail =>
    simp only [hdrop] at h
    split_ifs at h with hc
    obtain ⟨hc1, hc2, hc3, hc4, hc5⟩ := hc
    simp only [Option.some.injEq, Prod.mk.injEq] at h
    obtain ⟨hd, hs⟩ := h
    have hname : name = name.takeWhile isDigit ++ name.dropWhile isDigit :=
      (List.takeWhile_append_dropWhile isDigit name).symm
    have htail : tail = tail.take (tail.length - suffix.length)
        ++ tail.drop (tail.length - suffix.length) := (List.take_append_drop _ _).symm
    refine ⟨?_, ?_, ?_, ?_, ?_⟩
    · rw [hdrop, hd, hc1] at hname
      rw [hs, hc5] at htail
      rw [hname, htail]
      simp [stepKey]
    · rw [← hd]; exact hc2
    · intro b hb
      rw [← hd] at hb
      exact (List.mem_takeWhile_imp hb)
    · rw [← hs]; exact hc3
    · rw [← hs]; exact hc4

theorem matchStepFile_build {suffix d s : GoString} (hd : d ≠ [])
    (hdig : ∀ b ∈ d, isDigit b = true) (hs : s ≠ []) (hnl : newline ∉ s) :
    matchStepFile suffix (stepKey d s ++ suffix) = some (d, s) := by
  have htake : (stepKey d s ++ suffix).takeWhile isDigit = d := by
    have : stepKey d s ++ suffix = d ++ dash :: (s ++ suffix) := by simp [stepKey]
    rw [this, List.takeWhile_append_of_pos hdig]
    simp [List.takeWhile, isDigit, dash]
  have hdrop : (stepKey d s ++ suffix).dropWhile isDigit = dash :: (s ++ suffix) := by
    have : stepKey d s ++ suffix = d ++ dash :: (s ++ suffix) := by simp [stepKey]
    rw [this, List.dropWhile_append_of_pos hdig]
    simp [List.dropWhile, isDigit, dash]
  unfold matchStepFile
  simp only [htake, hdrop]
  have hlen : (s ++ suffix).length - suffix.length = s.length := by simp
  simp [hlen, hd, hs, hnl]

theorem contentRe_checkName (k : GoString) : contentRe (k ++ checkSuffix) = none := by
  cases h : contentRe (k ++ checkSuffix) with
  | none => rfl
  | some p =>
    obtain ⟨d, s⟩ := p
    exfalso
    have h1 := (matchStepFile_sound h).1
    have h2 := congrArg List.getLast? h1
    rw [checkSuffix_eq, contentSuffix_eq] at h2
    simp at h2

theorem scanEntry_content {m : StepMap} {e : DirEntry} {d s c : GoString}
    (hdir : e.isDir = false) (hre : contentRe e.name = some (d, s)) (hdata : e.data = some c) :
    scanEntry m e
      = upsert (stepKey d s) (fun step => { step with Content := c }) (freshContent d s c) m := by
  simp only [scanEntry, hdir, hre, hdata, upsert, freshContent]
  cases mapFind (stepKey d s) m <;> simp

theorem scanEntry_check {m : StepMap} {e : DirEntry} {d s c : GoString}
    (hdir : e.isDir = false) (hre0 : contentRe e.name = none)
    (hre : checkRe e.name = some (d, s)) (hdata : e.data = some c) :
    scanEntry m e
      = upsert (stepKey d s) (fun step => { step with Check := c }) (freshCheck d s c) m := by
  simp only [scanEntry, hdir, hre0, hre, hdata, upsert, freshCheck]
  cases mapFind (stepKey d s) m <;> simp

theorem entryKind (e : DirEntry) : EntryKind e := by
  cases hdir : e.isDir with
  | true => exact .skip (fun m => by simp [scanEntry, hdir]) (Or.inl hdir)
  | false =>
    cases hdata : e.data with
    | none =>
      refine .skip (fun m => ?_) (Or.inr (Or.inl hdata))
      simp only [scanEntry, hdir, hdata]
      cases contentRe e.name with
      | some p => simp
      | none => cases checkRe e.name <;> simp
    | some c =>
      cases hre0 : contentRe e.name with
      | some p => exact .content p.1 p.2 c hdir hre0 hdata
      | none =>
        cases hre : checkRe e.name with
        | some p => exact .check p.1 p.2 c hdir hre0 hre hdata
        | none =>
          exact .skip (fun m => by simp [scanEntry, hdir, hre0, hre]) (Or.inr (Or.inr ⟨hre0, hre⟩))

theorem scanInv_mono {p : List DirEntry} {m : StepMap} (h : ScanInv p m) (e : DirEntry) :
    ScanInv (p ++ [e]) m where
  keys_nodup := h.keys_nodup
  shape := h.shape
  content_src := fun k v hk hc => by
    obtain ⟨e', he', h'⟩ := h.content_src k v hk hc
    exact ⟨e', List.mem_append_left _ he', h'⟩
  check_src := fun k v hk hc => by
    obtain ⟨e', he', h'⟩ := h.check_src k v hk hc
    exact ⟨e', List.mem_append_left _ he', h'⟩

theorem scanInv_step {p : List DirEntry} {m : StepMap} (h : ScanInv p m) (e : DirEntry) :
    ScanInv (p ++ [e]) (scanEntry m e) := by
  rcases entryKind e with ⟨hskip, _⟩ | ⟨d, s, c, hdir, hre, hdata⟩ | ⟨d, s, c, hdir, hre0, hre, hdata⟩
  · rw [hskip]; exact scanInv_mono h e
  · rw [scanEntry_content hdir hre hdata]
    obtain ⟨hname, hd, hdig, hs, hnl⟩ := matchStepFile_sound hre
    have hm := scanInv_mono h e
    refine ⟨upsert_keys_nodup _ _ _ _ h.keys_nodup, ?_, ?_, ?_⟩
    · intro k v hk
      rw [mapFind_upsert] at hk
      split_ifs at hk with hkk
      · subst hkk
        cases hf : mapFind (stepKey d s) m with
        | none =>
          simp only [hf, Option.elim, Option.some.injEq] at hk
          subst hk
          exact ⟨rfl, d, s, rfl, hd, hdig, hs, hnl, rfl, rfl⟩
        | some v0 =>
          simp only [hf, Option.elim, Option.some.injEq] at hk
          subst hk
          exact h.shape _ v0 hf
      · exact h.shape _ _ hk
    · intro k v hk hc
      rw [mapFind_upsert] at hk
      split_ifs at hk with hkk
      · subst hkk
        refine ⟨e, by simp, hname, hdir, ?_⟩
        cases hf : mapFind (stepKey d s) m with
        | none =>
          simp only [hf, Option.elim, Option.some.injEq] at hk
          subst hk
          exact hdata
        | some v0 =>
          simp only [hf, Option.elim, Option.some.injEq] at hk
          subst hk
          exact hdata
      · exact hm.content_src _ _ hk hc
    · intro k v hk hc
      rw [mapFind_upsert] at hk
      split_ifs at hk with hkk
      · subst hkk
        cases hf : mapFind (stepKey d s) m with
        | none =>
          simp only [hf, Option.elim, Option.some.injEq] at hk
          subst hk
          exact absurd rfl hc
        | some v0 =>
          simp only [hf, Option.elim, Option.some.injEq] at hk
          subst hk
          exact hm.check_src _ v0 hf hc
      · exact hm.check_src _ _ hk hc
  · rw [scanEntry_check hdir hre0 hre hdata]
    obtain ⟨hname, hd, hdig, hs, hnl⟩ := matchStepFile_sound hre
    have hm := scanInv_mono h e
    refine ⟨upsert_keys_nodup _ _ _ _ h.keys_nodup, ?_, ?_, ?_⟩
    · intro k v hk
      rw [mapFind_upsert] at hk
      split_ifs at hk with hkk
      · subst hkk
        cases hf : mapFind (stepKey d s) m with
        | none =>
          simp only [hf, Option.elim, Option.some.injEq] at hk
          subst hk
          exact ⟨rfl, d, s, rfl, hd, hdig, hs, hnl, rfl, rfl⟩
        | some v0 =>
          simp only [hf, Option.elim, Option.some.injEq] at hk
          subst hk
          exact h.shape _ v0 hf
      · exact h.shape _ _ hk
    · intro k v hk hc
      rw [mapFind_upsert] at hk
      split_ifs at hk with hkk
      · subst hkk
        cases hf : mapFind (stepKey d s) m with
        | none =>
          simp only [hf, Option.elim, Option.some.injEq] at hk
          subst hk
          exact absurd rfl hc
        | some v0 =>
          simp only [hf, Option.elim, Option.some.injEq] at hk
          subst hk
          exact hm.content_src _ v0 hf hc
      · exact hm.content_src _ _ hk hc
    · intro k v hk hc
      rw [mapFind_upsert] at hk
      split_ifs at hk with hkk
      · subst hkk
        refine ⟨e, by simp, hname, hdir, ?_⟩
        cases hf : mapFind (stepKey d s) m with
        | none =>
          simp only [hf, Option.elim, Option.some.injEq] at hk
          subst hk
          exact hdata
        | some v0 =>
          simp only [hf, Option.elim, Option.some.injEq] at hk
          subst hk
          exact hdata
      · exact hm.check_src _ _ hk hc

theorem scanInv (entries : List DirEntry) : ScanInv entries (entries.foldl scanEntry []) := by
  induction entries using List.reverseRecOn with
  | nil =>
    exact ⟨by simp, fun k v h => by simp [mapFind] at h, fun k v h => by simp [mapFind] at h,
      fun k v h => by simp [mapFind] at h⟩
  | append_singleton l e ih =>
    rw [List.foldl_append]
    exact scanInv_step ih e

theorem scanComplete_step {p : List DirEntry} {m : StepMap} (h : ScanComplete p m)
    (e : DirEntry) (hnew : ∀ e' ∈ p, e'.name ≠ e.name) :
    ScanComplete (p ++ [e]) (scanEntry m e) := by
  rcases entryKind e with ⟨hskip, hno⟩ | ⟨d, s, c, hdir, hre, hdata⟩
    | ⟨d, s, c, hdir, hre0, hre, hdata⟩
  · rw [hskip]
    constructor
    · intro e' he' hdir' c' hdata' d' s' hre'
      rcases List.mem_append.mp he' with hp | hp
      · exact h.content_in e' hp hdir' c' hdata' d' s' hre'
      · rw [List.mem_singleton] at hp
        subst hp
        rcases hno with h1 | h1 | ⟨h1, _⟩
        · rw [h1] at hdir'; cases hdir'
        · rw [h1] at hdata'; cases hdata'
        · rw [h1] at hre'; cases hre'
    · intro e' he' hdir' c' hdata' d' s' hre0' hre'
      rcases List.mem_append.mp he' with hp | hp
      · exact h.check_in e' hp hdir' c' hdata' d' s' hre0' hre'
      · rw [List.mem_singleton] at hp
        subst hp
        rcases hno with h1 | h1 | ⟨_, h1⟩
        · rw [h1] at hdir'; cases hdir'
        · rw [h1] at hdata'; cases hdata'
        · rw [h1] at hre'; cases hre'
  · rw [scanEntry_content hdir hre hdata]
    have hname := (matchStepFile_sound hre).1
    constructor
    · intro e' he' hdir' c' hdata' d' s' hre'
      rw [mapFind_upsert]
      rcases List.mem_append.mp he' with hp | hp
      · have hname' := (matchStepFile_sound hre').1
        have hk : ¬ stepKey d' s' = stepKey d s := by
          intro hk
          apply hnew e' hp
          rw [hname, hname', hk]
        rw [if_neg hk]
        exact h.content_in e' hp hdir' c' hdata' d' s' hre'
      · rw [List.mem_singleton] at hp
        subst hp
        rw [hre] at hre'
        rw [hdata] at hdata'
        cases hre'
        cases hdata'
        rw [if_pos rfl]
        refine ⟨_, rfl, ?_⟩
        cases mapFind (stepKey d s) m <;> rfl
    · intro e' he' hdir' c' hdata' d' s' hre0' hre'
      rw [mapFind_upsert]
      rcases List.mem_append.mp he' with hp | hp
      · obtain ⟨v, hv, hvc⟩ := h.check_in e' hp hdir' c' hdata' d' s' hre0' hre'
        by_cases hk : stepKey d' s' = stepKey d s
        · rw [if_pos hk, ← hk, hv]
          exact ⟨_, rfl, hvc⟩
        · rw [if_neg hk]
          exact ⟨v, hv, hvc⟩
      · rw [List.mem_singleton] at hp
        subst hp
        rw [hre] at hre0'
        cases hre0'
  · rw [scanEntry_check hdir hre0 hre hdata]
    have hname := (matchStepFile_sound hre).1
    constructor
    · intro e' he' hdir' c' hdata' d' s' hre'
      rw [mapFind_upsert]
      rcases List.mem_append.mp he' with hp | hp
      · obtain ⟨v, hv, hvc⟩ := h.content_in e' hp hdir' c' hdata' d' s' hre'
        by_cases hk : stepKey d' s' = stepKey d s
        · rw [if_pos hk, ← hk, hv]
          exact ⟨_, rfl, hvc⟩
        · rw [if_neg hk]
          exact ⟨v, hv, hvc⟩
      · rw [List.mem_singleton] at hp
        subst hp
        rw [hre0] at hre'
        cases hre'
    · intro e' he' hdir' c' hdata' d' s' hre0' hre'
      rw [mapFind_upsert]
      rcases List.mem_append.mp he' with hp | hp
      · have hname' := (matchStepFile_sound hre').1
        have hk : ¬ stepKey d' s' = stepKey d s := by
          intro hk
          apply hnew e' hp
          rw [hname, hname', hk]
        rw [if_neg hk]
        exact h.check_in e' hp hdir' c' hdata' d' s' hre0' hre'
      · rw [List.mem_singleton] at hp
        subst hp
        rw [hre] at hre'
        rw [hdata] at hdata'
        cases hre'
        cases hdata'
        rw [if_pos rfl]
        refine ⟨_, rfl, ?_⟩
        cases mapFind (stepKey d s) m <;> rfl

theorem scanComplete (entries : List DirEntry) (hnd : (entries.map DirEntry.name).Nodup) :
    ScanComplete entries (entries.foldl scanEntry []) := by
  induction entries using List.reverseRecOn with
  | nil =>
    exact ⟨fun e he => by simp at he, fun e he => by simp at he⟩
  | append_singleton l e ih =>
    rw [List.foldl_append]
    rw [List.map_append, List.nodup_append] at hnd
    obtain ⟨hl, _, hdisj⟩ := hnd
    refine scanComplete_step (ih hl) e ?_
    intro e' he' heq
    exact hdisj (List.mem_map.mpr ⟨e', he', rfl⟩) (by simp [heq])

/-! ## Lemmas on the catalog -/

theorem catalog_perm (entries : List DirEntry) (o : MapOrder) :
    (loadSteps (.ok entries) o).1.Perm (kept entries) := by
  simp only [loadSteps, sortSlice, kept]
  refine (List.perm_insertionSort _ _).trans ?_
  exact ((o.perm _).map Prod.snd).filter _

theorem catalog_sorted (entries : List DirEntry) (o : MapOrder) :
    (loadSteps (.ok entries) o).1.Pairwise (fun a b => a.Order ≤ b.Order) := by
  simp only [loadSteps, sortSlice]
  haveI : IsTotal StepInfo (fun a b => a.Order ≤ b.Order) := ⟨fun a b => le_total a.Order b.Order⟩
  haveI : IsTrans StepInfo (fun a b => a.Order ≤ b.Order) :=
    ⟨fun a b c hab hbc => le_trans hab hbc⟩
  exact List.sorted_insertionSort _ _

theorem mem_kept {entries : List DirEntry} {r : StepInfo} :
    r ∈ kept entries ↔ mapFind r.Name (entries.foldl scanEntry []) = some r ∧ r.Content ≠ [] := by
  have hinv := scanInv entries
  simp only [kept, List.mem_filter, List.mem_map, decide_eq_true_eq]
  constructor
  · rintro ⟨⟨⟨k, v⟩, hmem, rfl⟩, hc⟩
    have hf := mapFind_of_mem hinv.keys_nodup hmem
    have hname := (hinv.shape k v hf).1
    simp only at hname hc ⊢
    rw [hname]
    exact ⟨hf, hc⟩
  · rintro ⟨hf, hc⟩
    exact ⟨⟨(r.Name, r), mem_of_mapFind hf, rfl⟩, hc⟩

theorem mem_catalog {entries : List DirEntry} {o : MapOrder} {r : StepInfo} :
    r ∈ (loadSteps (.ok entries) o).1
      ↔ mapFind r.Name (entries.foldl scanEntry []) = some r ∧ r.Content ≠ [] := by
  rw [(catalog_perm entries o).mem_iff, mem_kept]

theorem kept_names_nodup (entries : List DirEntry) :
    ((kept entries).map StepInfo.Name).Nodup := by
  have hinv := scanInv entries
  have hkeys : ((entries.foldl scanEntry []).map Prod.snd).map StepInfo.Name
      = (entries.foldl scanEntry []).map Prod.fst := by
    rw [List.map_map]
    apply List.map_congr_left
    rintro ⟨k, v⟩ hmem
    exact (hinv.shape k v (mapFind_of_mem hinv.keys_nodup hmem)).1
  have hnd : (((entries.foldl scanEntry []).map Prod.snd).map StepInfo.Name).Nodup := by
    rw [hkeys]; exact hinv.keys_nodup
  exact ((List.filter_sublist _).map StepInfo.Name).nodup hnd

theorem catalog_names_nodup (entries : List DirEntry) (o : MapOrder) :
    ((loadSteps (.ok entries) o).1.map StepInfo.Name).Nodup :=
  (((catalog_perm entries o).map StepInfo.Name).nodup_iff).mpr (kept_names_nodup entries)

theorem sorted_perm_unique : ∀ (l1 l2 : List StepInfo), l1.Perm l2 →
    l1.Pairwise (fun a b => a.Order < b.Order) →
    l2.Pairwise (fun a b => a.Order < b.Order) → l1 = l2 := by
  intro l1
  induction l1 with
  | nil => intro l2 h _ _; exact h.nil_eq
  | cons a t1 ih =>
    intro l2 h h1 h2
    cases l2 with
    | nil => exact absurd h.symm.nil_eq (by simp)
    | cons b t2 =>
      have ha : a ∈ b :: t2 := h.subset (List.mem_cons_self a t1)
      have hb : b ∈ a :: t1 := h.symm.subset (List.mem_cons_self b t2)
      rw [List.pairwise_cons] at h1 h2
      have hab : a = b := by
        rcases List.mem_cons.mp ha with e | ha2
        · exact e
        · rcases List.mem_cons.mp hb with e | hb2
          · exact e.symm
          · exact absurd (h1.1 b hb2) (not_lt.mpr (le_of_lt (h2.1 a ha2)))
      subst hab
      rw [ih t2 (List.Perm.cons_inv h) h1.2 h2.2]

theorem strict_of_sorted_distinct {l : List StepInfo}
    (hs : l.Pairwise (fun a b => a.Order ≤ b.Order)) (hd : (l.map StepInfo.Order).Nodup) :
    l.Pairwise (fun a b => a.Order < b.Order) := by
  have hne : l.Pairwise (fun a b => a.Order ≠ b.Order) := List.pairwise_map.mp hd
  exact (hs.and hne).imp (fun h => lt_of_le_of_ne h.1 h.2)

theorem sortSlice_perm (l : List StepInfo) : (sortSlice l).Perm l :=
  List.perm_insertionSort _ _

theorem sortSlice_sorted (l : List StepInfo) :
    (sortSlice l).Pairwise (fun a b => a.Order ≤ b.Order) := by
  haveI : IsTotal StepInfo (fun a b => a.Order ≤ b.Order) := ⟨fun a b => le_total a.Order b.Order⟩
  haveI : IsTrans StepInfo (fun a b => a.Order ≤ b.Order) :=
    ⟨fun a b c hab hbc => le_trans hab hbc⟩
  exact List.sorted_insertionSort _ _

/-- When the kept records have pairwise different `Order`, the catalog does not
depend on the visiting order of the map. -/
theorem catalog_unique (entries : List DirEntry) (o : MapOrder)
    (hd : ((kept entries).map StepInfo.Order).Nodup) :
    (loadSteps (.ok entries) o).1 = sortSlice (kept entries) := by
  have hp := catalog_perm entries o
  have hp2 := sortSlice_perm (kept entries)
  apply sorted_perm_unique _ _ (hp.trans hp2.symm)
  · exact strict_of_sorted_distinct (catalog_sorted entries o) ((hp.map _).nodup_iff.mpr hd)
  · exact strict_of_sorted_distinct (sortSlice_sorted _) ((hp2.map _).nodup_iff.mpr hd)

theorem getStepsFrom_length (i : Nat) (l : List StepInfo) :
    (getStepsFrom i l).length = l.length := by
  induction l generalizing i with
  | nil => rfl
  | cons a t ih => simp [getStepsFrom, ih]

theorem getStepsFrom_getElem? (i k : Nat) (l : List StepInfo) :
    (getStepsFrom i l)[k]? = (l[k]?).map (fun info =>
      { Number := ((i + k : Nat) : Int) + 1, Title := info.Title, Content := [],
        HasCheck := decide (info.Check ≠ []) }) := by
  induction l generalizing i k with
  | nil => simp [getStepsFrom]
  | cons a t ih =>
    cases k with
    | zero => simp [getStepsFrom]
    | succ k =>
      simp only [getStepsFrom, List.getElem?_cons_succ, ih]
      have : i + 1 + k = i + (k + 1) := by omega
      rw [this]

theorem getStepsFrom_numbers (i : Nat) (l : List StepInfo) :
    (getStepsFrom i l).map Step.Number
      = (List.range l.length).map (fun k => ((i + k : Nat) : Int) + 1) := by
  induction l generalizing i with
  | nil => rfl
  | cons a t ih =>
    simp only [getStepsFrom, List.map_cons, List.length_cons, List.range_succ_eq_map,
      List.map_map, ih]
    simp only [Nat.add_zero, List.cons.injEq, true_and]
    apply List.map_congr_left
    intro k _
    simp only [Function.comp, Nat.succ_eq_add_one]
    have : i + 1 + k = i + (k + 1) := by omega
    rw [this]

/-! ## Lemmas on Atoi -/

theorem foldl_digits_ge (s : GoString) (n : Nat) :
    n ≤ s.foldl (fun n c => n * 10 + (c - 48)) n := by
  induction s generalizing n with
  | nil => exact le_refl n
  | cons c cs ih =>
    simp only [List.foldl_cons]
    exact le_trans (by omega) (ih (n * 10 + (c - 48)))

theorem parseUintLoop_digits (s : GoString) (n : Nat) (hn : n < 2 ^ 64)
    (hdig : ∀ b ∈ s, isDigit b = true) :
    parseUintLoop s n
      = if s.foldl (fun n c => n * 10 + (c - 48)) n < 2 ^ 64
        then .ok (s.foldl (fun n c => n * 10 + (c - 48)) n) else .error .ErrRange := by
  induction s generalizing n with
  | nil =>
    rw [List.foldl_nil, if_pos hn]
    rfl
  | cons c cs ih =>
    have hc : isDigit c = true := hdig c (List.mem_cons_self c cs)
    simp only [isDigit, decide_eq_true_eq] at hc
    have hc' : ¬ (c < 48 ∨ 57 < c) := by omega
    rw [parseUintLoop, if_neg hc', List.foldl_cons]
    by_cases hov : 2 ^ 64 ≤ n * 10 + (c - 48)
    · have hge := foldl_digits_ge cs (n * 10 + (c - 48))
      have : ¬ cs.foldl (fun n c => n * 10 + (c - 48)) (n * 10 + (c - 48)) < 2 ^ 64 := by omega
      rw [if_pos hov, if_neg this]
    · rw [if_neg hov]
      exact ih _ (by omega) (fun b hb => hdig b (List.mem_cons_of_mem c hb))

theorem Atoi_digits (d : GoString) (hd : d ≠ []) (hdig : ∀ b ∈ d, isDigit b = true) :
    Atoi d = if digitsValue d < 2 ^ 63 then ((digitsValue d : Int), none)
             else (maxInt, some .ErrRange) := by
  cases d with
  | nil => exact absurd rfl hd
  | cons b r =>
    have hb : isDigit b = true := hdig b (List.mem_cons_self b r)
    simp only [isDigit, decide_eq_true_eq] at hb
    have hp := parseUintLoop_digits (b :: r) 0 (by norm_num) hdig
    have hA : Atoi (b :: r) = parseIntBody false (b :: r) := by
      unfold Atoi
      split
      · rename_i heq; simp only [List.cons.injEq] at heq; omega
      · rename_i heq; simp only [List.cons.injEq] at heq; omega
      · rfl
    have hP : ParseUint (b :: r) = parseUintLoop (b :: r) 0 := rfl
    rw [hA, parseIntBody, hP, hp]
    unfold digitsValue
    by_cases h64 : (b :: r).foldl (fun n c => n * 10 + (c - 48)) 0 < 2 ^ 64
    · rw [if_pos h64]
      by_cases h63 : (b :: r).foldl (fun n c => n * 10 + (c - 48)) 0 < 2 ^ 63
      · have : ¬ 2 ^ 63 ≤ (b :: r).foldl (fun n c => n * 10 + (c - 48)) 0 := by omega
        rw [if_pos h63]
        simp only [Bool.false_eq_true, if_false]
        rw [if_neg this]
      · have : 2 ^ 63 ≤ (b :: r).foldl (fun n c => n * 10 + (c - 48)) 0 := by omega
        rw [if_neg h63]
        simp only [Bool.false_eq_true, if_false]
        rw [if_pos this]
    · have h63 : ¬ (b :: r).foldl (fun n c => n * 10 + (c - 48)) 0 < 2 ^ 63 := by omega
      rw [if_neg h64, if_neg h63]
      simp only [Bool.false_eq_true, if_false]

theorem Atoi_minus (d : GoString) :
    (Atoi (45 :: d)).2 ≠ none ∨ (Atoi (45 :: d)).1 < 1 := by
  have hA : Atoi (45 :: d) = parseIntBody true d := rfl
  rw [hA, parseIntBody]
  cases ParseUint d with
  | error e =>
    cases e
    · exact Or.inl (by simp)
    · exact Or.inl (by simp)
  | ok un =>
    by_cases h : 2 ^ 63 < un
    · left
      simp only [if_true]
      rw [if_pos h]
      simp
    · right
      simp only [if_true]
      rw [if_neg h]
      show -(un : Int) < 1
      omega

/-! ## Lemmas on formatTitle -/

theorem Split_ne_nil (sep : Nat) (s : GoString) : Split sep s ≠ [] := by
  cases s with
  | nil => simp [Split]
  | cons c cs =>
    by_cases h : c = sep
    · simp [Split, h]
    · simp only [Split, h, if_false]
      cases Split sep cs <;> simp

theorem Join_cons_cons (sep : GoString) (c : Nat) (w : GoString) (ws : List GoString) :
    Join sep ((c :: w) :: ws) = c :: Join sep (w :: ws) := by
  cases ws with
  | nil => rfl
  | cons w2 ws => simp [Join]

theorem Join_nil_cons (sep : GoString) (ws : List GoString) (h : ws ≠ []) :
    Join sep ([] :: ws) = sep ++ Join sep ws := by
  cases ws with
  | nil => exact absurd rfl h
  | cons w2 ws => simp [Join]

theorem Join_Split (sep : Nat) (s : GoString) : Join [sep] (Split sep s) = s := by
  induction s with
  | nil => rfl
  | cons c cs ih =>
    by_cases h : c = sep
    · simp only [Split, h, if_true]
      rw [Join_nil_cons _ _ (Split_ne_nil sep cs), ih]
      rfl
    · simp only [Split, h, if_false]
      cases hs : Split sep cs with
      | nil => exact absurd hs (Split_ne_nil sep cs)
      | cons w ws =>
        rw [hs] at ih
        simp only
        rw [Join_cons_cons, ih]

theorem Split_length (sep : Nat) (s : GoString) :
    (Split sep s).length = s.count sep + 1 := by
  induction s with
  | nil => rfl
  | cons c cs ih =>
    by_cases h : c = sep
    · simp [Split, h, ih]
    · simp only [Split, h, if_false]
      have hc : (c :: cs).count sep = cs.count sep := by
        rw [List.count_cons]
        simp [h]
      rw [hc, ← ih]
      cases hs : Split sep cs with
      | nil => exact absurd hs (Split_ne_nil sep cs)
      | cons w ws => simp

theorem Split_mem (sep : Nat) (s : GoString) :
    ∀ w ∈ Split sep s, (∀ b ∈ w, b ∈ s) ∧ sep ∉ w := by
  induction s with
  | nil => intro w hw; simp [Split] at hw; subst hw; simp
  | cons c cs ih =>
    intro w hw
    by_cases h : c = sep
    · simp only [Split, h, if_true, List.mem_cons] at hw
      rcases hw with hw | hw
      · subst hw; simp
      · obtain ⟨h1, h2⟩ := ih w hw
        exact ⟨fun b hb => List.mem_cons_of_mem _ (h1 b hb), h2⟩
    · simp only [Split, h, if_false] at hw
      cases hs : Split sep cs with
      | nil => exact absurd hs (Split_ne_nil sep cs)
      | cons w0 ws =>
        rw [hs] at hw ih
        simp only [List.mem_cons] at hw
        rcases hw with hw | hw
        · subst hw
          obtain ⟨h1, h2⟩ := ih w0 (List.mem_cons_self _ _)
          refine ⟨?_, ?_⟩
          · intro b hb
            rcases List.mem_cons.mp hb with hb | hb
            · subst hb; exact List.mem_cons_self _ _
            · exact List.mem_cons_of_mem _ (h1 b hb)
          · intro hmem
            rcases List.mem_cons.mp hmem with hb | hb
            · exact h hb.symm
            · exact h2 hb
        · obtain ⟨h1, h2⟩ := ih w (List.mem_cons_of_mem _ hw)
          exact ⟨fun b hb => List.mem_cons_of_mem _ (h1 b hb), h2⟩

theorem capitalize_ascii (w : GoString) (h : w.headD 0 < 128) : capitalize w = firstUpper w := by
  cases w with
  | nil => rfl
  | cons b rest =>
    have hb : b < 0x80 := h
    simp only [capitalize, firstUpper, ToUpperByte, upperAscii]
    rw [if_pos hb]
    split_ifs <;> rfl

theorem formatTitle_ascii (slug : GoString)
    (hascii : ∀ w ∈ Split dash slug, w.headD 0 < 128) :
    formatTitle slug = Join [32] ((Split dash slug).map firstUpper) := by
  unfold formatTitle
  congr 1
  apply List.map_congr_left
  intro w hw
  exact capitalize_ascii w (hascii w hw)

theorem headMap_true (ws : List GoString) : headMap true ws = ws.map firstUpper := by
  cases ws <;> simp [headMap]

theorem Join_headMap (start : Bool) (slug : GoString) :
    Join [32] (headMap start (Split dash slug)) = titleScan start slug := by
  induction slug generalizing start with
  | nil => cases start <;> rfl
  | cons c cs ih =>
    by_cases h : c = dash
    · simp only [Split, h, if_true, headMap, titleScan]
      have hne : (Split dash cs).map firstUpper ≠ [] := by
        simpa using Split_ne_nil dash cs
      have hnil : (if start = true then firstUpper [] else []) = ([] : GoString) := by
        cases start <;> rfl
      rw [hnil, Join_nil_cons _ _ hne, ← headMap_true, ih true]
      rfl
    · simp only [Split, h, if_false, titleScan]
      have ih' := ih false
      cases hs : Split dash cs with
      | nil => exact absurd hs (Split_ne_nil dash cs)
      | cons w ws =>
        rw [hs] at ih'
        simp only [headMap, Bool.false_eq_true, if_false] at ih'
        cases start with
        | true =>
          simp only [headMap, if_true, firstUpper]
          rw [Join_cons_cons, ih']
        | false =>
          simp only [headMap, Bool.false_eq_true, if_false]
          rw [Join_cons_cons, ih']

theorem titleScan_length (start : Bool) (slug : GoString) :
    (titleScan start slug).length = slug.length := by
  induction slug generalizing start with
  | nil => rfl
  | cons c cs ih =>
    by_cases h : c = dash
    · simp [titleScan, h, ih]
    · simp [titleScan, h, ih]

theorem titleScan_dash (start : Bool) (slug : GoString) (i : Nat)
    (h : slug[i]? = some dash) : (titleScan start slug)[i]? = some 32 := by
  induction slug generalizing start i with
  | nil => simp at h
  | cons c cs ih =>
    cases i with
    | zero =>
      simp only [List.getElem?_cons_zero, Option.some.injEq] at h
      simp [titleScan, h]
    | succ i =>
      simp only [List.getElem?_cons_succ] at h
      by_cases hc : c = dash
      · simp only [titleScan, hc, if_true, List.getElem?_cons_succ]
        exact ih true i h
      · simp only [titleScan, hc, if_false, List.getElem?_cons_succ]
        exact ih false i h

/-! ## Lemmas on the terminal session -/

theorem cleanupRuns_of_counts {s : Session} {n : Nat} (h : Counts s n) :
    cleanupRuns s = some n := by
  obtain ⟨h1, h2, h3⟩ := h
  simp [cleanupRuns, h1, h2, h3]

theorem sessionInv_init : SessionInv Session.init := by
  simp [SessionInv, Session.init, Counts]

theorem sessionInv_step {s s' : Session} {e : Event} (h : SessionInv s)
    (hs : step s e = some s') : SessionInv s' := by
  obtain ⟨main, reader, spawned, deferred, wsClosed, ptmxClosed, log⟩ := s
  cases e with
  | ptyStart err =>
    cases main <;> cases err <;> simp [step] at hs
    · subst hs
      simp only [SessionInv, Counts] at h ⊢
      obtain ⟨h1, h2, h3, h4, h5⟩ := h
      simp [cleanup, List.count_append, h3, h4, h5, h1]
    · subst hs
      simp only [SessionInv, Counts, ret] at h ⊢
      obtain ⟨h1, h2, h3, h4, h5⟩ := h
      simp [List.count_append, h3, h4, h5, h1, h2]
  | readMessage r =>
    cases main <;> cases r <;> simp [step] at hs
    · subst hs
      simp only [SessionInv, Counts, ret] at h ⊢
      obtain ⟨h1, h2, h3, h4, h5⟩ := h
      simp [List.count_append, h3, h4, h5, h1, h2, cleanup]
    · subst hs
      simpa [SessionInv, Counts] using h
  | ptmxWriteDone ok =>
    cases main <;> simp [step] at hs
    cases ok <;> simp at hs
    · subst hs
      simp only [SessionInv, Counts, ret] at h ⊢
      obtain ⟨h1, h2, h3, h4, h5⟩ := h
      simp [List.count_append, h3, h4, h5, h1, h2, cleanup]
    · subst hs
      simp only [SessionInv, Counts] at h ⊢
      obtain ⟨h1, h2, h3, h4, h5⟩ := h
      simp [List.count_append, h3, h4, h5, h1, h2]
  | ptmxRead r =>
    cases reader <;> cases r <;> simp [step] at hs
    · subst hs
      cases main <;> simp only [SessionInv, Counts] at h ⊢ <;>
        simp [List.count_append, h]
    · split_ifs at hs
      · cases hs; exact h
      · cases hs
        cases main <;> simpa [SessionInv, Counts] using h
  | writeMessageDone ok =>
    cases reader <;> simp [step] at hs
    cases ok <;> simp at hs
    · subst hs
      cases main <;> simpa [SessionInv, Counts] using h
    · subst hs
      cases main <;> simp only [SessionInv, Counts] at h ⊢ <;>
        simp [List.count_append, h]

theorem sessionInv_run {s s' : Session} {evs : List Event} (h : SessionInv s)
    (hr : run s evs = some s') : SessionInv s' := by
  induction evs generalizing s with
  | nil =>
    simp only [run, Option.some.injEq] at hr
    subst hr
    exact h
  | cons e es ih =>
    simp only [run] at hr
    cases hstep : step s e with
    | none => simp [hstep] at hr
    | some s1 =>
      simp only [hstep] at hr
      exact ih (sessionInv_step h hstep) hr

/-! ## The step catalog: ordering and numbering -/

/-- C1: for every directory listing that `loadSteps` can read, the catalog is in
ascending `Order` (the record at position i has an `Order` at most that of the
record at any later position j), and `getSteps` gives one summary per record
whose `Number` is its 0-based position plus one, so the numbers are exactly
1..N with N the length of the catalog, whatever gaps the ordinals have. -/
theorem loadSteps_sorted_getSteps_contiguous (entries : List DirEntry) (o : MapOrder) :
    (∀ (i j : Nat) (a b : StepInfo), i < j →
        (loadSteps (.ok entries) o).1[i]? = some a →
        (loadSteps (.ok entries) o).1[j]? = some b → a.Order ≤ b.Order)
    ∧ (getSteps (loadSteps (.ok entries) o).1).length = (loadSteps (.ok entries) o).1.length
    ∧ (∀ (k : Nat) (s : Step),
        (getSteps (loadSteps (.ok entries) o).1)[k]? = some s → s.Number = (k : Int) + 1)
    ∧ (getSteps (loadSteps (.ok entries) o).1).map Step.Number
        = (List.range (loadSteps (.ok entries) o).1.length).map (fun (k : Nat) => (k : Int) + 1) := by
  refine ⟨?_, getStepsFrom_length 0 _, ?_, ?_⟩
  · intro i j a b hij ha hb
    obtain ⟨hi, rfl⟩ := List.getElem?_eq_some.mp ha
    obtain ⟨hj, rfl⟩ := List.getElem?_eq_some.mp hb
    exact List.pairwise_iff_getElem.mp (catalog_sorted entries o) i j hi hj hij
  · intro k s hs
    rw [getSteps, getStepsFrom_getElem?] at hs
    cases hk : (loadSteps (.ok entries) o).1[k]? with
    | none => rw [hk] at hs; cases hs
    | some info =>
      rw [hk] at hs
      simp only [Option.map_some', Option.some.injEq] at hs
      subst hs
      simp
  · rw [getSteps, getStepsFrom_numbers]
    apply List.map_congr_left
    intro k _
    simp

/-- Witness of C1: ordinals 1, 5, 20 are served as steps 1, 2, 3. -/
theorem loadSteps_sorted_getSteps_contiguous_witness :
    (loadSteps (.ok gapListing) MapOrder.reversed).1.map StepInfo.Order = [1, 5, 20]
    ∧ (1 : Int) ≤ 20
    ∧ (getSteps (loadSteps (.ok gapListing) MapOrder.reversed).1).map Step.Number = [1, 2, 3] :=
  ⟨by decide,
   (loadSteps_sorted_getSteps_contiguous gapListing MapOrder.reversed).1 0 2
      ⟨go "1-a", go "A", 1, go "first", []⟩ ⟨go "20-c", go "C", 20, go "third", []⟩
      (by decide) (by decide) (by decide),
   ((loadSteps_sorted_getSteps_contiguous gapListing MapOrder.reversed).2.2.2).trans (by decide)⟩

/-! ## getStep -/

/-- Counterexample to C2: 9223372036854775808 is a decimal numeral, its value
2^63 is above the length of the catalog, and it is neither 0, negative nor a
non-integer; `getStep` answers BadRequest, not NotFound. The numeral one below
it is answered with NotFound. -/
theorem getStep_numeral_outside_int :
    (∀ b ∈ go "9223372036854775808", isDigit b = true)
    ∧ digitsValue (go "9223372036854775808") = 2 ^ 63
    ∧ twoSteps.length < digitsValue (go "9223372036854775808")
    ∧ getStep (go "9223372036854775808") twoSteps
        = .error StatusBadRequest (go "invalid step number")
    ∧ getStep (go "9223372036854775808") twoSteps
        ≠ .error StatusNotFound (go "step not found")
    ∧ getStep (go "9223372036854775807") twoSteps
        = .error StatusNotFound (go "step not found") := by
  decide

/-- C2 as amended: `getStep` answers with a step exactly when the parameter
parses as an `int` `number` with 1 ≤ number ≤ len(stepsCache), and the step is
then the record at that position (`Number = number`, title and content of
`stepsCache[number-1]`, `HasCheck` iff its check text is non-empty); a number
above the length that fits in `int` gives NotFound "step not found"; 0, every
negative numeral, every parameter that is no integer, and every numeral outside
the range of `int` (a decimal numeral of value 2^63 or more) gives BadRequest
whatever the catalog is; no index is ever out of range. A decimal numeral below
2^63 parses to its value. -/
theorem getStep_defined_exactly_in_range (param : GoString) (stepsCache : List StepInfo) :
    (∀ step, getStep param stepsCache = .json step ↔
        (Atoi param).2 = none ∧ 1 ≤ (Atoi param).1
        ∧ (Atoi param).1 ≤ (stepsCache.length : Int)
        ∧ ∃ info, stepsCache[((Atoi param).1 - 1).toNat]? = some info
          ∧ step = { Number := (Atoi param).1, Title := info.Title, Content := info.Content,
                     HasCheck := decide (info.Check ≠ []) })
    ∧ ((Atoi param).2 = none → 1 ≤ (Atoi param).1 →
        (Atoi param).1 ≤ (stepsCache.length : Int) → ∃ step, getStep param stepsCache = .json step)
    ∧ ((Atoi param).2 = none → (stepsCache.length : Int) < (Atoi param).1 →
        getStep param stepsCache = .error StatusNotFound (go "step not found"))
    ∧ (((Atoi param).2 ≠ none ∨ (Atoi param).1 < 1) →
        ∀ cache, getStep param cache = .error StatusBadRequest (go "invalid step number"))
    ∧ getStep param stepsCache ≠ .panicked
    ∧ (param ≠ [] → (∀ b ∈ param, isDigit b = true) →
        (digitsValue param < 2 ^ 63 → Atoi param = ((digitsValue param : Int), none))
        ∧ (digitsValue param < 2 ^ 63 → stepsCache.length < digitsValue param →
            getStep param stepsCache = .error StatusNotFound (go "step not found"))
        ∧ (2 ^ 63 ≤ digitsValue param →
            ∀ cache, getStep param cache = .error StatusBadRequest (go "invalid step number")))
    ∧ (∀ d, param = 45 :: d →
        ∀ cache, getStep param cache = .error StatusBadRequest (go "invalid step number")) := by
  have hin : (Atoi param).2 = none → 1 ≤ (Atoi param).1 →
      (Atoi param).1 ≤ (stepsCache.length : Int) →
      ∃ info, stepsCache[((Atoi param).1 - 1).toNat]? = some info
        ∧ getStep param stepsCache
          = .json { Number := (Atoi param).1, Title := info.Title, Content := info.Content,
                    HasCheck := decide (info.Check ≠ []) } := by
    intro herr hlo hhi
    have hlt : ((Atoi param).1 - 1).toNat < stepsCache.length := by omega
    refine ⟨stepsCache[((Atoi param).1 - 1).toNat], List.getElem?_eq_getElem hlt, ?_⟩
    have h1 : ¬ ((Atoi param).2 ≠ none ∨ (Atoi param).1 < 1) := by
      rintro (h | h)
      · exact h herr
      · omega
    have h2 : ¬ (Atoi param).1 > (stepsCache.length : Int) := by omega
    have h3 : ¬ (Atoi param).1 - 1 < 0 := by omega
    simp only [getStep, index, if_neg h1, if_neg h2, if_neg h3, List.getElem?_eq_getElem hlt]
  have hbad : ((Atoi param).2 ≠ none ∨ (Atoi param).1 < 1) →
      ∀ cache, getStep param cache = .error StatusBadRequest (go "invalid step number") := by
    intro h cache
    simp only [getStep, if_pos h]
  have hnf : (Atoi param).2 = none → (stepsCache.length : Int) < (Atoi param).1 →
      getStep param stepsCache = .error StatusNotFound (go "step not found") := by
    intro herr hgt
    have h1 : ¬ ((Atoi param).2 ≠ none ∨ (Atoi param).1 < 1) := by
      rintro (h | h)
      · exact h herr
      · omega
    have h2 : (Atoi param).1 > (stepsCache.length : Int) := hgt
    simp only [getStep, if_neg h1, if_pos h2]
  refine ⟨?_, ?_, hnf, hbad, ?_, ?_, ?_⟩
  · intro step
    constructor
    · intro hjson
      by_cases hb : (Atoi param).2 ≠ none ∨ (Atoi param).1 < 1
      · rw [hbad hb stepsCache] at hjson; cases hjson
      · have herr : (Atoi param).2 = none := by
          by_contra hne; exact hb (Or.inl hne)
        have hlo : 1 ≤ (Atoi param).1 := by
          by_contra hne; exact hb (Or.inr (by omega))
        by_cases hgt : (stepsCache.length : Int) < (Atoi param).1
        · rw [hnf herr hgt] at hjson; cases hjson
        · have hhi : (Atoi param).1 ≤ (stepsCache.length : Int) := by omega
          obtain ⟨info, hinfo, heq⟩ := hin herr hlo hhi
          rw [heq] at hjson
          cases hjson
          exact ⟨herr, hlo, hhi, info, hinfo, rfl⟩
    · rintro ⟨herr, hlo, hhi, info, hinfo, rfl⟩
      obtain ⟨info', hinfo', heq⟩ := hin herr hlo hhi
      rw [hinfo] at hinfo'
      cases hinfo'
      exact heq
  · intro herr hlo hhi
    obtain ⟨info, _, heq⟩ := hin herr hlo hhi
    exact ⟨_, heq⟩
  · by_cases hb : (Atoi param).2 ≠ none ∨ (Atoi param).1 < 1
    · rw [hbad hb stepsCache]; exact fun h => by cases h
    · have herr : (Atoi param).2 = none := by
        by_contra hne; exact hb (Or.inl hne)
      have hlo : 1 ≤ (Atoi param).1 := by
        by_contra hne; exact hb (Or.inr (by omega))
      by_cases hgt : (stepsCache.length : Int) < (Atoi param).1
      · rw [hnf herr hgt]; exact fun h => by cases h
      · obtain ⟨info, _, heq⟩ := hin herr hlo (by omega)
        rw [heq]; exact fun h => by cases h
  · intro hd hdig
    have hA := Atoi_digits param hd hdig
    refine ⟨?_, ?_, ?_⟩
    · intro hv
      rw [hA, if_pos hv]
    · intro hv hgt
      rw [if_pos hv] at hA
      apply hnf
      · rw [hA]
      · rw [hA]
        show (stepsCache.length : Int) < (digitsValue param : Int)
        omega
    · intro hv
      have hnot : ¬ digitsValue param < 2 ^ 63 := by omega
      rw [if_neg hnot] at hA
      apply hbad
      left
      rw [hA]
      simp
  · intro d hd cache
    apply hbad
    rw [hd]
    exact Atoi_minus d

/-- Witness of C2 as amended: step 2 of two is served, step 3 is not found, the
parameters 0, -1, abc and 1.5 are bad requests, and so is the numeral 2^63. -/
theorem getStep_defined_exactly_in_range_witness :
    getStep (go "2") twoSteps = .json ⟨2, go "Deploy", go "deploy", false⟩
    ∧ getStep (go "3") twoSteps = .error StatusNotFound (go "step not found")
    ∧ getStep (go "0") twoSteps = .error StatusBadRequest (go "invalid step number")
    ∧ getStep (go "-1") twoSteps = .error StatusBadRequest (go "invalid step number")
    ∧ getStep (go "abc") twoSteps = .error StatusBadRequest (go "invalid step number")
    ∧ getStep (go "1.5") twoSteps = .error StatusBadRequest (go "invalid step number")
    ∧ getStep (go "9223372036854775808") twoSteps
        = .error StatusBadRequest (go "invalid step number") :=
  ⟨((getStep_defined_exactly_in_range (go "2") twoSteps).1 _).mpr
      ⟨by decide, by decide, by decide, ⟨go "02-deploy", go "Deploy", 2, go "deploy", []⟩,
        by decide, by decide⟩,
   (getStep_defined_exactly_in_range (go "3") twoSteps).2.2.1 (by decide) (by decide),
   (getStep_defined_exactly_in_range (go "0") twoSteps).2.2.2.1 (Or.inr (by decide)) twoSteps,
   (getStep_defined_exactly_in_range (go "-1") twoSteps).2.2.2.1 (Or.inr (by decide)) twoSteps,
   (getStep_defined_exactly_in_range (go "abc") twoSteps).2.2.2.1 (Or.inl (by decide)) twoSteps,
   (getStep_defined_exactly_in_range (go "1.5") twoSteps).2.2.2.1 (Or.inl (by decide)) twoSteps,
   ((getStep_defined_exactly_in_range (go "9223372036854775808") twoSteps).2.2.2.2.2.1
      (by decide) (by decide)).2.2 (by decide) twoSteps⟩

/-! ## The step catalog: which records it holds -/

theorem catalog_record {entries : List DirEntry} {o : MapOrder} {r : StepInfo}
    (hr : r ∈ (loadSteps (.ok entries) o).1) :
    KeyShape r.Name r ∧ r.Content ≠ []
      ∧ ∃ e ∈ entries, e.name = r.Name ++ contentSuffix ∧ e.isDir = false
          ∧ e.data = some r.Content := by
  obtain ⟨hf, hc⟩ := mem_catalog.mp hr
  have hinv := scanInv entries
  exact ⟨hinv.shape _ _ hf, hc, hinv.content_src _ _ hf hc⟩

/-- C3: for every directory listing, `loadSteps` returns nil, every record of
the catalog has non-empty `Content` that is the text of the content file of its
key, a key without content file (with or without a check file) is the `Name` of
no record, and the catalog is no longer than the list of content files. -/
theorem check_only_key_dropped (entries : List DirEntry) (o : MapOrder) :
    (loadSteps (.ok entries) o).2 = none
    ∧ (∀ r ∈ (loadSteps (.ok entries) o).1, r.Content ≠ []
        ∧ ∃ e ∈ entries, e.name = r.Name ++ contentSuffix ∧ e.isDir = false
            ∧ e.data = some r.Content)
    ∧ (∀ key, (∀ e ∈ entries, e.name ≠ key ++ contentSuffix) →
        ∀ r ∈ (loadSteps (.ok entries) o).1, r.Name ≠ key)
    ∧ (loadSteps (.ok entries) o).1.length
        ≤ (entries.filter (fun e => !e.isDir && (contentRe e.name).isSome)).length := by
  refine ⟨rfl, fun r hr => (catalog_record hr).2, ?_, ?_⟩
  · intro key hno r hr hname
    obtain ⟨_, _, e, he, hen, _⟩ := catalog_record hr
    exact hno e he (hname ▸ hen)
  · have hnd : ((loadSteps (.ok entries) o).1.map (fun r => r.Name ++ contentSuffix)).Nodup := by
      have h := catalog_names_nodup entries o
      have hmap : (loadSteps (.ok entries) o).1.map (fun r => r.Name ++ contentSuffix)
          = ((loadSteps (.ok entries) o).1.map StepInfo.Name).map (fun k => k ++ contentSuffix) := by
        rw [List.map_map]; rfl
      rw [hmap]
      exact h.map (fun a b hab => List.append_cancel_right hab)
    have hsub : (loadSteps (.ok entries) o).1.map (fun r => r.Name ++ contentSuffix)
        ⊆ (entries.filter (fun e => !e.isDir && (contentRe e.name).isSome)).map DirEntry.name := by
      intro n hn
      obtain ⟨r, hr, rfl⟩ := List.mem_map.mp hn
      obtain ⟨⟨_, d, s, hk, hd, hdig, hs, hnl, _⟩, _, e, he, hen, hdir, _⟩ := catalog_record hr
      refine List.mem_map.mpr ⟨e, List.mem_filter.mpr ⟨he, ?_⟩, hen⟩
      have hre : contentRe e.name = some (d, s) := by
        rw [hen, hk]
        exact matchStepFile_build hd hdig hs hnl
      simp [hdir, hre]
    have hle := (hnd.subperm hsub).length_le
    simpa using hle

/-- Witness of C3: the key 01-a has a check file only and is dropped; the
catalog holds the one step 02-b. -/
theorem check_only_key_dropped_witness :
    (∀ e ∈ checkOnlyListing, e.name ≠ go "01-a" ++ contentSuffix)
    ∧ (∀ r ∈ (loadSteps (.ok checkOnlyListing) MapOrder.insertion).1, r.Name ≠ go "01-a")
    ∧ (loadSteps (.ok checkOnlyListing) MapOrder.insertion).1.map StepInfo.Name = [go "02-b"] :=
  ⟨by decide,
   (check_only_key_dropped checkOnlyListing MapOrder.insertion).2.2.1 (go "01-a") (by decide),
   by decide⟩

/-- Counterexample to C4: the files 01-a-content.md and 1-a-content.md give two
catalog records, both with `Order` 1 and slug `a`, in every visiting order. -/
theorem same_ordinal_slug_twice :
    (loadSteps (.ok sameOrdinalListing) MapOrder.insertion).1.map
        (fun r => (r.Name, r.Order, slugOf r.Name))
      = [(go "01-a", 1, go "a"), (go "1-a", 1, go "a")]
    ∧ ¬ ∃ o : MapOrder, ((loadSteps (.ok sameOrdinalListing) o).1.map
        (fun r => (r.Order, slugOf r.Name))).Nodup := by
  refine ⟨by decide, ?_⟩
  rintro ⟨o, h⟩
  have hp := (catalog_perm sameOrdinalListing o).map (fun r => (r.Order, slugOf r.Name))
  have h2 := hp.nodup_iff.mp h
  revert h2
  decide

/-- C4 as amended: for every directory listing, no two records of the catalog
have the same pairing key `Name`, and every `Name` is a digit prefix, `-` and a
slug exactly as captured from a file name, with `Order` the value `Atoi` gives
for that prefix and `Title` derived from that slug. -/
theorem catalog_keys_distinct (entries : List DirEntry) (o : MapOrder) :
    ((loadSteps (.ok entries) o).1.map StepInfo.Name).Nodup
    ∧ ∀ r ∈ (loadSteps (.ok entries) o).1, ∃ d s, r.Name = stepKey d s ∧ d ≠ []
        ∧ (∀ b ∈ d, isDigit b = true) ∧ slugOf r.Name = s ∧ r.Order = (Atoi d).1
        ∧ r.Title = formatTitle s := by
  refine ⟨catalog_names_nodup entries o, ?_⟩
  intro r hr
  obtain ⟨⟨_, d, s, hk, hd, hdig, _, _, ht, ho⟩, _⟩ := catalog_record hr
  refine ⟨d, s, hk, hd, hdig, ?_, ho, ht⟩
  rw [hk, slugOf, stepKey, List.dropWhile_append_of_pos hdig]
  simp [List.dropWhile, isDigit, dash]

/-- Witness of C4 as amended: the keys 01-a and 1-a differ. -/
theorem catalog_keys_distinct_witness :
    ((loadSteps (.ok sameOrdinalListing) MapOrder.insertion).1.map StepInfo.Name).Nodup
    ∧ (loadSteps (.ok sameOrdinalListing) MapOrder.insertion).1.map StepInfo.Name
        = [go "01-a", go "1-a"] :=
  ⟨(catalog_keys_distinct sameOrdinalListing MapOrder.insertion).1, by decide⟩

theorem takeWhile_stepKey {d : GoString} (s : GoString) (hdig : ∀ b ∈ d, isDigit b = true) :
    (stepKey d s).takeWhile isDigit = d := by
  rw [stepKey, List.takeWhile_append_of_pos hdig]
  simp [List.takeWhile, isDigit, dash]

theorem stepKey_inj {d d' s s' : GoString} (hdig : ∀ b ∈ d, isDigit b = true)
    (hdig' : ∀ b ∈ d', isDigit b = true) (h : stepKey d s = stepKey d' s') :
    d = d' ∧ s = s' := by
  have hd : d = d' := by
    rw [← takeWhile_stepKey s hdig, ← takeWhile_stepKey s' hdig', h]
  subst hd
  refine ⟨rfl, ?_⟩
  have h2 := List.append_cancel_left h
  simpa using h2

theorem shape_order {k d s : GoString} {v : StepInfo} (hv : KeyShape k v) (hk : k = stepKey d s)
    (hdig : ∀ b ∈ d, isDigit b = true) : v.Order = (Atoi d).1 ∧ v.Title = formatTitle s := by
  obtain ⟨_, d', s', hk', _, hdig', _, _, ht, ho⟩ := hv
  obtain ⟨hd, hs⟩ := stepKey_inj hdig hdig' (hk.symm.trans hk')
  subst hd; subst hs
  exact ⟨ho, ht⟩

/-- Counterexample to C6: 99999999999999999999-x-content.md next to
01-a-content.md gives a catalog of two records, never of one; the second has the
largest `int` as `Order`. -/
theorem overflowing_prefix_not_skipped :
    (loadSteps (.ok overflowListing) MapOrder.insertion).1.map
        (fun r => (r.Name, r.Order, r.Content))
      = [(go "01-a", 1, go "one"), (go "99999999999999999999-x", 2 ^ 63 - 1, go "big")]
    ∧ ¬ ∃ o : MapOrder, (loadSteps (.ok overflowListing) o).1.length = 1 := by
  refine ⟨by decide, ?_⟩
  rintro ⟨o, h⟩
  have hlen := (catalog_perm overflowListing o).length_eq
  rw [h] at hlen
  revert hlen
  decide

/-- C6 as amended: in a listing of distinct names, a readable file that matches
the content or check pattern and whose digit prefix denotes a number of 2^63 or
more is loaded like any other: `Atoi` saturates, so a content file with
non-empty text gives a record of its key with `Order` 2^63-1, that text and the
title of its slug, and a check file gives its text to the record of its key. -/
theorem overflowing_prefix_saturates (entries : List DirEntry) (o : MapOrder)
    (hnd : (entries.map DirEntry.name).Nodup) (e : DirEntry) (he : e ∈ entries)
    (hdir : e.isDir = false) (d s c : GoString) (hdata : e.data = some c)
    (hov : 2 ^ 63 ≤ digitsValue d) :
    (contentRe e.name = some (d, s) → c ≠ [] →
        ∃ r ∈ (loadSteps (.ok entries) o).1, r.Name = stepKey d s ∧ r.Order = 2 ^ 63 - 1
          ∧ r.Content = c ∧ r.Title = formatTitle s)
    ∧ (contentRe e.name = none → checkRe e.name = some (d, s) →
        ∀ r ∈ (loadSteps (.ok entries) o).1, r.Name = stepKey d s →
          r.Order = 2 ^ 63 - 1 ∧ r.Check = c) := by
  have hinv := scanInv entries
  have hcomp := scanComplete entries hnd
  have hatoi : d ≠ [] → (∀ b ∈ d, isDigit b = true) → (Atoi d).1 = 2 ^ 63 - 1 := by
    intro hd hdig
    have hnot : ¬ digitsValue d < 2 ^ 63 := by omega
    rw [Atoi_digits d hd hdig, if_neg hnot]
    rfl
  constructor
  · intro hre hc
    obtain ⟨_, hd, hdig, _, _⟩ := matchStepFile_sound hre
    obtain ⟨v, hv, hvc⟩ := hcomp.content_in e he hdir c hdata d s hre
    have hshape := hinv.shape _ _ hv
    obtain ⟨ho, ht⟩ := shape_order hshape rfl hdig
    refine ⟨v, mem_catalog.mpr ?_, hshape.1, ?_, hvc, ht⟩
    · rw [hshape.1]
      exact ⟨hv, by rw [hvc]; exact hc⟩
    · rw [ho]; exact hatoi hd hdig
  · intro hre0 hre r hr hname
    obtain ⟨_, hd, hdig, _, _⟩ := matchStepFile_sound hre
    obtain ⟨v, hv, hvc⟩ := hcomp.check_in e he hdir c hdata d s hre0 hre
    obtain ⟨hf, _⟩ := mem_catalog.mp hr
    rw [hname, hv] at hf
    cases hf
    have hshape := hinv.shape _ _ hv
    obtain ⟨ho, _⟩ := shape_order hshape rfl hdig
    exact ⟨by rw [ho]; exact hatoi hd hdig, hvc⟩

/-- Witness of C6 as amended: the file 99999999999999999999-x-content.md of
`overflowListing` has a record in the catalog, with `Order` 2^63-1. -/
theorem overflowing_prefix_saturates_witness :
    ∃ r ∈ (loadSteps (.ok overflowListing) MapOrder.insertion).1,
      r.Name = stepKey (go "99999999999999999999") (go "x") ∧ r.Order = 2 ^ 63 - 1
        ∧ r.Content = go "big" ∧ r.Title = formatTitle (go "x") :=
  (overflowing_prefix_saturates overflowListing MapOrder.insertion (by decide)
    (file "99999999999999999999-x-content.md" "big") (by decide) (by decide)
    (go "99999999999999999999") (go "x") (go "big") (by decide) (by decide)).1
    (by decide) (by decide)

/-! ## Pairing of content and check files -/

/-- C7: in a listing of distinct names, the summary that `getSteps` gives for a
catalog record reports `HasCheck` exactly when the listing holds a readable,
non-empty regular file whose name is the record's own digits and slug followed
by `-check.sh`; the record stems from the content file with the same digits and
slug. The condition is one of membership, so the place of the files in the
listing plays no part. The listing 01-setup-content.md, 01-setup-check.sh,
02-deploy-content.md gives, in either order and for every visiting order of the
map, two steps of which the first has a check and the second has none. -/
theorem hasCheck_iff_check_file (entries : List DirEntry) (o : MapOrder)
    (hnd : (entries.map DirEntry.name).Nodup) :
    (∀ (k : Nat) (r : StepInfo), (loadSteps (.ok entries) o).1[k]? = some r →
      ∃ st, (getSteps (loadSteps (.ok entries) o).1)[k]? = some st ∧ st.Title = r.Title
        ∧ ∃ d s, r.Name = stepKey d s
          ∧ (∃ e ∈ entries, e.name = stepKey d s ++ contentSuffix ∧ e.isDir = false
              ∧ e.data = some r.Content)
          ∧ (st.HasCheck = true ↔
              ∃ e ∈ entries, e.name = stepKey d s ++ checkSuffix ∧ e.isDir = false
                ∧ ∃ c, e.data = some c ∧ c ≠ []))
    ∧ (∀ o' : MapOrder, getSteps (loadSteps (.ok setupListing) o').1
        = [⟨1, go "Setup", [], true⟩, ⟨2, go "Deploy", [], false⟩])
    ∧ (∀ o' : MapOrder, getSteps (loadSteps (.ok setupListing.reverse) o').1
        = [⟨1, go "Setup", [], true⟩, ⟨2, go "Deploy", [], false⟩]) := by
  refine ⟨?_, ?_, ?_⟩
  · intro k r hk
    have hr : r ∈ (loadSteps (.ok entries) o).1 := List.getElem?_mem hk
    obtain ⟨hshape, _, hsrc⟩ := catalog_record hr
    obtain ⟨hf, _⟩ := mem_catalog.mp hr
    obtain ⟨_, d, s, hkey, hd, hdig, hs, hnl, _, _⟩ := hshape
    have hinv := scanInv entries
    have hcomp := scanComplete entries hnd
    refine ⟨_, by rw [getSteps, getStepsFrom_getElem?, hk]; rfl, rfl, d, s, hkey, ?_, ?_⟩
    · rw [← hkey]; exact hsrc
    · simp only [decide_eq_true_eq]
      constructor
      · intro hc
        obtain ⟨e, he, hen, hdir, hdata⟩ := hinv.check_src _ _ hf hc
        exact ⟨e, he, hkey ▸ hen, hdir, r.Check, hdata, hc⟩
      · rintro ⟨e, he, hen, hdir, c, hdata, hc⟩
        have hre0 : contentRe e.name = none := by rw [hen]; exact contentRe_checkName _
        have hre : checkRe e.name = some (d, s) := by
          rw [hen]; exact matchStepFile_build hd hdig hs hnl
        obtain ⟨v, hv, hvc⟩ := hcomp.check_in e he hdir c hdata d s hre0 hre
        rw [hkey, hv] at hf
        cases hf
        rw [hvc]; exact hc
  · intro o'
    rw [catalog_unique setupListing o' (by decide)]
    decide
  · intro o'
    rw [catalog_unique setupListing.reverse o' (by decide)]
    decide

/-- Witness of C7: step 1 of the example scenario has a check because the
listing holds 01-setup-check.sh. -/
theorem hasCheck_iff_check_file_witness :
    ∃ st, (getSteps (loadSteps (.ok setupListing) MapOrder.insertion).1)[0]? = some st
      ∧ st.Title = go "Setup"
      ∧ ∃ d s, go "01-setup" = stepKey d s
        ∧ (∃ e ∈ setupListing, e.name = stepKey d s ++ contentSuffix ∧ e.isDir = false
            ∧ e.data = some (go "install"))
        ∧ (st.HasCheck = true ↔
            ∃ e ∈ setupListing, e.name = stepKey d s ++ checkSuffix ∧ e.isDir = false
              ∧ ∃ c, e.data = some c ∧ c ≠ []) :=
  (hasCheck_iff_check_file setupListing MapOrder.insertion (by decide)).1 0
    ⟨go "01-setup", go "Setup", 1, go "install", go "test -f /tmp/ok"⟩ (by decide)

/-! ## formatTitle -/

/-- Counterexample to C5: a doubled separator leaves an empty token, so the
title of `a--b` has two spaces. -/
theorem formatTitle_double_separator :
    formatTitle (go "a--b") = go "A  B" ∧ formatTitle (go "a--b") ≠ go "A B"
    ∧ formatTitle (go "-a") = go " A" ∧ formatTitle (go "a-") = go "A " := by
  decide

/-- C5 as amended: `formatTitle` keeps empty segments. For every slug whose
non-empty segments each begin with an ASCII byte, the title is all the
`-`-separated segments of the slug, empty ones included (one more than the slug
has separators, and joined by `-` they give the slug back), each non-empty one
with its first byte in ASCII uppercase, joined by one space; the title is as
long as the slug and has a space at every position where the slug has a `-`, so
a doubled, leading or trailing separator gives a doubled, leading or trailing
space. -/
theorem formatTitle_keeps_empty_segments (slug : GoString)
    (hascii : ∀ w ∈ Split dash slug, w.headD 0 < 128) :
    formatTitle slug = Join [32] ((Split dash slug).map firstUpper)
    ∧ (Split dash slug).length = slug.count dash + 1
    ∧ Join [dash] (Split dash slug) = slug
    ∧ (∀ w ∈ Split dash slug, dash ∉ w)
    ∧ (formatTitle slug).length = slug.length
    ∧ (∀ i : Nat, slug[i]? = some dash → (formatTitle slug)[i]? = some 32) := by
  have hscan : formatTitle slug = titleScan true slug := by
    rw [formatTitle_ascii slug hascii, ← headMap_true, Join_headMap]
  refine ⟨formatTitle_ascii slug hascii, Split_length dash slug, Join_Split dash slug,
    fun w hw => (Split_mem dash slug w hw).2, ?_, ?_⟩
  · rw [hscan, titleScan_length]
  · intro i hi
    rw [hscan]
    exact titleScan_dash true slug i hi

/-- Witness of C5 as amended: the slug `a--b`. -/
theorem formatTitle_keeps_empty_segments_witness :
    (∀ w ∈ Split dash (go "a--b"), w.headD 0 < 128)
    ∧ formatTitle (go "a--b") = Join [32] [go "A", [], go "B"]
    ∧ (formatTitle (go "a--b"))[2]? = some 32 :=
  ⟨by decide,
   (formatTitle_keeps_empty_segments (go "a--b") (by decide)).1.trans (by decide),
   (formatTitle_keeps_empty_segments (go "a--b") (by decide)).2.2.2.2.2 2 (by decide)⟩

/-- C8 on the code: the slug `école` has one non-empty segment, yet its title is
neither `École` nor the slug with an uppercased first character: the first byte
of the two-byte `é` is replaced by U+FFFD and the second byte is left behind. The
slug `intro-to-pods` gives `Intro To Pods`. -/
theorem formatTitle_first_byte_not_character :
    Split dash (go "école") = [go "école"]
    ∧ formatTitle (go "école") = [0xEF, 0xBF, 0xBD, 0xA9] ++ go "cole"
    ∧ formatTitle (go "école") ≠ go "École"
    ∧ (formatTitle (go "école")).drop 3 ≠ (go "école").drop 2
    ∧ formatTitle (go "intro-to-pods") = go "Intro To Pods" := by
  decide

/-- The part of C8 that holds on the code: when every segment of the slug is
non-empty and begins with an ASCII byte, the title is the segments in their
order, each with its first byte in ASCII uppercase and the rest unchanged,
joined by one space. -/
theorem formatTitle_ascii_segments (slug : GoString)
    (hne : ∀ w ∈ Split dash slug, w ≠ [])
    (hascii : ∀ w ∈ Split dash slug, w.headD 0 < 128) :
    formatTitle slug = Join [32] ((Split dash slug).map firstUpper)
    ∧ ∀ w ∈ Split dash slug, ∃ b rest, w = b :: rest ∧ firstUpper w = upperAscii b :: rest := by
  refine ⟨formatTitle_ascii slug hascii, ?_⟩
  intro w hw
  cases w with
  | nil => exact absurd rfl (hne [] hw)
  | cons b rest => exact ⟨b, rest, rfl, rfl⟩

/-! ## checkStep -/

/-- C9: for every parameter that parses as an integer `number` with
1 ≤ number ≤ len(stepsCache), `checkStep` hands a script to `executeCheck`
exactly when the check text of `stepsCache[number-1]` is non-empty, and the
script is that text, once; without check text it answers NotFound "no check
script for this step" and runs nothing. For a number above the length the answer
is NotFound "step not found", a different answer. -/
theorem checkStep_runs_check_iff_present (executeCheck : GoString → CheckResult)
    (param : GoString) (stepsCache : List StepInfo)
    (herr : (Atoi param).2 = none) (hlo : 1 ≤ (Atoi param).1)
    (hhi : (Atoi param).1 ≤ (stepsCache.length : Int)) :
    (∃ info, stepsCache[((Atoi param).1 - 1).toNat]? = some info
      ∧ ((checkStep executeCheck param stepsCache).2 ≠ [] ↔ info.Check ≠ [])
      ∧ (info.Check ≠ [] → checkStep executeCheck param stepsCache
            = (.json (executeCheck info.Check), [info.Check]))
      ∧ (info.Check = [] → checkStep executeCheck param stepsCache
            = (.error StatusNotFound (go "no check script for this step"), [])))
    ∧ (∀ param', (Atoi param').2 = none → (stepsCache.length : Int) < (Atoi param').1 →
        checkStep executeCheck param' stepsCache
          = (.error StatusNotFound (go "step not found"), []))
    ∧ (Response.error StatusNotFound (go "no check script for this step") : Response CheckResult)
        ≠ .error StatusNotFound (go "step not found") := by
  refine ⟨?_, ?_, by decide⟩
  · have hlt : ((Atoi param).1 - 1).toNat < stepsCache.length := by omega
    have h1 : ¬ ((Atoi param).2 ≠ none ∨ (Atoi param).1 < 1) := by
      rintro (h | h)
      · exact h herr
      · omega
    have h2 : ¬ (Atoi param).1 > (stepsCache.length : Int) := by omega
    have h3 : ¬ (Atoi param).1 - 1 < 0 := by omega
    have hrun : ∀ (hc : stepsCache[((Atoi param).1 - 1).toNat].Check ≠ []),
        checkStep executeCheck param stepsCache
          = (.json (executeCheck stepsCache[((Atoi param).1 - 1).toNat].Check),
             [stepsCache[((Atoi param).1 - 1).toNat].Check]) := by
      intro hc
      simp only [checkStep, index, if_neg h1, if_neg h2, if_neg h3,
        List.getElem?_eq_getElem hlt, if_neg hc]
    have hnone : ∀ (hc : stepsCache[((Atoi param).1 - 1).toNat].Check = []),
        checkStep executeCheck param stepsCache
          = (.error StatusNotFound (go "no check script for this step"), []) := by
      intro hc
      simp only [checkStep, index, if_neg h1, if_neg h2, if_neg h3,
        List.getElem?_eq_getElem hlt, if_pos hc]
    refine ⟨stepsCache[((Atoi param).1 - 1).toNat], List.getElem?_eq_getElem hlt, ?_, hrun, hnone⟩
    constructor
    · intro hne hc
      rw [hnone hc] at hne
      exact hne rfl
    · intro hc
      rw [hrun hc]
      simp
  · intro param' herr' hgt
    have h1 : ¬ ((Atoi param').2 ≠ none ∨ (Atoi param').1 < 1) := by
      rintro (h | h)
      · exact h herr'
      · omega
    have h2 : (Atoi param').1 > (stepsCache.length : Int) := hgt
    simp only [checkStep, if_neg h1, if_pos h2]

/-- Witness of C9: in `twoSteps` the check of step 1 is run and step 2 has none. -/
theorem checkStep_runs_check_iff_present_witness :
    (checkStep (fun _ => ⟨true, []⟩) (go "1") twoSteps).2 = [go "test -f /tmp/ok"]
    ∧ checkStep (fun _ => ⟨true, []⟩) (go "2") twoSteps
        = (.error StatusNotFound (go "no check script for this step"), [])
    ∧ checkStep (fun _ => ⟨true, []⟩) (go "3") twoSteps
        = (.error StatusNotFound (go "step not found"), []) :=
  ⟨by decide,
   by
    obtain ⟨info, hinfo, _, _, hnone⟩ :=
      (checkStep_runs_check_iff_present (fun _ => ⟨true, []⟩) (go "2") twoSteps
        (by decide) (by decide) (by decide)).1
    have hi : info = ⟨go "02-deploy", go "Deploy", 2, go "deploy", []⟩ := by
      have h2 : twoSteps[((Atoi (go "2")).1 - 1).toNat]?
          = some ⟨go "02-deploy", go "Deploy", 2, go "deploy", []⟩ := by decide
      rw [h2] at hinfo
      exact (Option.some.inj hinfo).symm
    exact hnone (by rw [hi]),
   (checkStep_runs_check_iff_present (fun _ => ⟨true, []⟩) (go "2") twoSteps
      (by decide) (by decide) (by decide)).2.1 (go "3") (by decide) (by decide)⟩

/-! ## Terminal session -/

/-- Counterexample to C10: when spawning the remote shell fails, the handler
writes its diagnostic and returns, and the cleanup routine has run zero times. -/
theorem cleanup_not_run_on_spawn_failure :
    ∃ s, run Session.init [.ptyStart (some (go "exec: kubectl: not found"))] = some s
      ∧ s.main = .returned ∧ cleanupRuns s = some 0
      ∧ s.log = [.wsWriteText (go "Failed to start terminal: exec: kubectl: not found")] := by
  refine ⟨_, rfl, ?_, ?_, ?_⟩ <;> decide

/-- C10 as amended: in every state a terminal session can reach, the three calls
of the cleanup routine have been made equally often, and that number is 1 when
`handleTerminal` has returned after a successful spawn (through a websocket read
error or a PTY write error, before or after the goroutine closed the socket at
PTY end-of-stream) and 0 otherwise: before the return, and after a return on
spawn failure. -/
theorem cleanup_once_after_spawn (evs : List Event) (s : Session)
    (h : run Session.init evs = some s) :
    cleanupRuns s = some (if s.main = .returned ∧ s.spawned = true then 1 else 0) := by
  have hinv := sessionInv_run sessionInv_init h
  obtain ⟨main, reader, spawned, deferred, wsClosed, ptmxClosed, log⟩ := s
  cases main with
  | start =>
    simp only [SessionInv] at hinv
    simpa using cleanupRuns_of_counts hinv.2.2
  | reading =>
    simp only [SessionInv] at hinv
    simpa using cleanupRuns_of_counts hinv.2.2
  | writing msg =>
    simp only [SessionInv] at hinv
    simpa using cleanupRuns_of_counts hinv.2.2
  | returned =>
    simp only [SessionInv] at hinv
    simpa using cleanupRuns_of_counts hinv.2

/-- Witness of C10 as amended: PTY end-of-stream, then the failed read; and PTY
end-of-stream, a frame that is still received and relayed, then a PTY write
error. -/
theorem cleanup_once_after_spawn_witness :
    run Session.init [.ptyStart none, .ptmxRead none, .readMessage none] = some afterPtyEof
    ∧ cleanupRuns afterPtyEof = some 1
    ∧ run Session.init lateFrames = some afterLateWriteError
    ∧ cleanupRuns afterLateWriteError = some 1 :=
  ⟨by decide,
   (cleanup_once_after_spawn [.ptyStart none, .ptmxRead none, .readMessage none] afterPtyEof
      (by decide)).trans (by decide),
   by decide,
   (cleanup_once_after_spawn lateFrames afterLateWriteError (by decide)).trans (by decide)⟩

/-- The other exits after a successful spawn: a websocket read error and a PTY
write error each end with the cleanup routine run once, as its last actions. -/
theorem exits_after_spawn :
    (run Session.init [.ptyStart none, .readMessage none]).map
        (fun s => (s.main, cleanupRuns s, s.log))
      = some (.returned, some 1, [.setsize, .ptmxClose, .processKill, .cmdWait])
    ∧ (run Session.init [.ptyStart none, .readMessage (some [108, 115]),
          .ptmxWriteDone true, .readMessage (some [10]), .ptmxWriteDone false]).map
        (fun s => (s.main, cleanupRuns s, s.log))
      = some (.returned, some 1,
          [.setsize, .ptmxWrite [108, 115], .ptmxClose, .processKill, .cmdWait]) := by
  decide

end LearningUI
